/-
Verification of `fix_checksum.py` (pypingou/persistency-demo).

The script `update_checksum_file` reads `.cargo-checksum.json` from the
current directory, rebuilds its `files` mapping keeping only paths that
still exist on disk (rehashing each with SHA-256), and writes the manifest
back compactly (`separators=(',',':')`).

This file embeds the script shallowly:
  * `FileState`/`FS` model the filesystem (absent, regular file with
    textual content, directory, existing-but-unreadable file);
  * `sha256HexBytes` is an executable SHA-256 over byte lists, applied to
    the UTF-8 bytes of a file's content (`hashlib.sha256(f.read()).hexdigest()`);
  * `JVal` models the JSON documents the manifest can hold (strings,
    arrays, objects — the shapes the claims exercise), `dumps` models
    `json.dump(..., separators=(',',':'))` including Python's
    `ensure_ascii` escaping, and `loads` models `json.load`;
  * `update_checksum_file` is the line-by-line embedding of the script,
    returning the Python-level error outcome (if any) and the final
    filesystem.
-/
import Mathlib

set_option maxRecDepth 100000

namespace FixChecksum

/-! ### Bytes, hex and UTF-8 -/

/-- Truncate to a 32-bit word, as Python-level `& 0xffffffff` /
the implicit word size of SHA-256 arithmetic. -/
def w32 (n : Nat) : Nat := n % 4294967296

/-- Right rotation of a 32-bit word. -/
def rotr (n x : Nat) : Nat := w32 ((x >>> n) ||| (x <<< (32 - n)))

/-- Lowercase hexadecimal digit, as produced by `hexdigest()`. -/
def hexDig (n : Nat) : Char :=
  if n < 10 then Char.ofNat (48 + n) else Char.ofNat (87 + n)

/-- A 32-bit word as 8 lowercase hex characters (big-endian). -/
def word8Hex (n : Nat) : List Char :=
  [hexDig (n / 268435456 % 16), hexDig (n / 16777216 % 16),
   hexDig (n / 1048576 % 16), hexDig (n / 65536 % 16),
   hexDig (n / 4096 % 16), hexDig (n / 256 % 16),
   hexDig (n / 16 % 16), hexDig (n % 16)]

/-- UTF-8 encoding of a single character, as a list of byte values. -/
def charUtf8 (c : Char) : List Nat :=
  let n := c.toNat
  if n < 128 then [n]
  else if n < 2048 then [192 + n / 64, 128 + n % 64]
  else if n < 65536 then
    [224 + n / 4096, 128 + n / 64 % 64, 128 + n % 64]
  else
    [240 + n / 262144, 128 + n / 4096 % 64, 128 + n / 64 % 64, 128 + n % 64]

/-- UTF-8 byte sequence of a string (Python reads/writes files in UTF-8,
and `hashlib` consumes the raw bytes). -/
def utf8Encode (s : String) : List Nat := (s.data.map charUtf8).flatten

/-! ### SHA-256 (executable, over byte lists) -/

/-- The 64 SHA-256 round constants of FIPS 180-4 (the fractional parts of
the cube roots of the first 64 primes), written in decimal. -/
def shaK : List Nat :=
  [1116352408, 1899447441, 3049323471, 3921009573, 961987163,
   1508970993, 2453635748, 2870763221, 3624381080, 310598401,
   607225278, 1426881987, 1925078388, 2162078206, 2614888103,
   3248222580, 3835390401, 4022224774, 264347078, 604807628,
   770255983, 1249150122, 1555081692, 1996064986, 2554220882,
   2821834349, 2952996808, 3210313671, 3336571891, 3584528711,
   113926993, 338241895, 666307205, 773529912, 1294757372,
   1396182291, 1695183700, 1986661051, 2177026350, 2456956037,
   2730485921, 2820302411, 3259730800, 3345764771, 3516065817,
   3600352804, 4094571909, 275423344, 430227734, 506948616,
   659060556, 883997877, 958139571, 1322822218, 1537002063,
   1747873779, 1955562222, 2024104815, 2227730452, 2361852424,
   2428436474, 2756734187, 3204031479, 3329325298]

/-- The SHA-256 compression state: eight 32-bit words. -/
structure Hash8 where
  a : Nat
  b : Nat
  c : Nat
  d : Nat
  e : Nat
  f : Nat
  g : Nat
  h : Nat
  deriving Repr, DecidableEq

/-- SHA-256 initial hash value (FIPS 180-4), written in decimal. -/
def shaH0 : Hash8 :=
  ⟨1779033703, 3144134277, 1013904242, 2773480762,
   1359893119, 2600822924, 528734635, 1541459225⟩

def smallSigma0 (x : Nat) : Nat := (rotr 7 x) ^^^ (rotr 18 x) ^^^ (x >>> 3)
def smallSigma1 (x : Nat) : Nat := (rotr 17 x) ^^^ (rotr 19 x) ^^^ (x >>> 10)
def bigSigma0 (x : Nat) : Nat := (rotr 2 x) ^^^ (rotr 13 x) ^^^ (rotr 22 x)
def bigSigma1 (x : Nat) : Nat := (rotr 6 x) ^^^ (rotr 11 x) ^^^ (rotr 25 x)
def chFn (x y z : Nat) : Nat := (x &&& y) ^^^ ((x ^^^ 4294967295) &&& z)
def majFn (x y z : Nat) : Nat := (x &&& y) ^^^ (x &&& z) ^^^ (y &&& z)

/-- Big-endian 8-byte encoding of the bit length appended by padding. -/
def be8 (n : Nat) : List Nat :=
  [n / 72057594037927936 % 256, n / 281474976710656 % 256,
   n / 1099511627776 % 256, n / 4294967296 % 256,
   n / 16777216 % 256, n / 65536 % 256, n / 256 % 256, n % 256]

/-- SHA-256 message padding: `0x80`, zeros to 56 mod 64, 64-bit length. -/
def padMsg (msg : List Nat) : List Nat :=
  let L := msg.length
  let z := (56 + 64 - (L + 1) % 64) % 64
  msg ++ 128 :: List.replicate z 0 ++ be8 (8 * L)

/-- Group bytes four at a time into big-endian 32-bit words. -/
def toWords : List Nat → List Nat
  | a :: b :: c :: d :: rest => (((a * 256 + b) * 256 + c) * 256 + d) :: toWords rest
  | _ => []

/-- `n`-th element of a list, defaulting to 0. -/
def idx (l : List Nat) (i : Nat) : Nat := l.getD i 0

/-- Extend the 16-word block to the 64-word message schedule.  The
accumulator holds the schedule in reverse (most recent word first). -/
def extendLoop : Nat → List Nat → List Nat
  | 0, r => r.reverse
  | k + 1, r =>
      extendLoop k
        (w32 (idx r 15 + smallSigma0 (idx r 14) + idx r 6 + smallSigma1 (idx r 1)) :: r)

/-- Message schedule of one 16-word block. -/
def schedule (block : List Nat) : List Nat := extendLoop 48 block.reverse

/-- One SHA-256 round. -/
def shaRound (st : Hash8) (kw : Nat × Nat) : Hash8 :=
  let t1 := w32 (st.h + bigSigma1 st.e + chFn st.e st.f st.g + kw.1 + kw.2)
  let t2 := w32 (bigSigma0 st.a + majFn st.a st.b st.c)
  ⟨w32 (t1 + t2), st.a, st.b, st.c, w32 (st.d + t1), st.e, st.f, st.g⟩

/-- Process one 512-bit block. -/
def compressBlock (h : Hash8) (block : List Nat) : Hash8 :=
  let st := (shaK.zip (schedule block)).foldl shaRound h
  ⟨w32 (h.a + st.a), w32 (h.b + st.b), w32 (h.c + st.c), w32 (h.d + st.d),
   w32 (h.e + st.e), w32 (h.f + st.f), w32 (h.g + st.g), w32 (h.h + st.h)⟩

/-- Split a (padded) byte list into 64-byte blocks; fuel-driven so that it
reduces definitionally. -/
def chunks64 : Nat → List Nat → List (List Nat)
  | 0, _ => []
  | _, [] => []
  | fuel + 1, l => l.take 64 :: chunks64 fuel (l.drop 64)

/-- SHA-256 of a byte list, as the eight final state words. -/
def sha256Words (msg : List Nat) : Hash8 :=
  let padded := padMsg msg
  ((chunks64 padded.length padded).map toWords).foldl compressBlock shaH0

/-- `hashlib.sha256(bytes).hexdigest()`: lowercase hex, no prefix. -/
def sha256HexBytes (msg : List Nat) : String :=
  let h := sha256Words msg
  ⟨word8Hex h.a ++ word8Hex h.b ++ word8Hex h.c ++ word8Hex h.d ++
   word8Hex h.e ++ word8Hex h.f ++ word8Hex h.g ++ word8Hex h.h⟩

example : sha256HexBytes (utf8Encode "hello") =
    "2cf24dba5fb0a30e26e83b2ac5b9e29e1b161e5c1fa7425e73043362938b9824" := by
  decide

example : sha256HexBytes [] =
    "e3b0c44298fc1c149afbf4c8996fb92427ae41e4649b934ca495991b7852b855" := by
  decide

/-! ### JSON documents

`JVal` models the JSON documents the manifest file can hold, restricted to
the shapes the script and the claims exercise: strings, arrays, objects.
Objects are ordered association lists — Python dicts preserve insertion
order, and `json.load` builds them in document order. -/

mutual
inductive JVal : Type where
  | str (s : String)
  | arr (elems : JArr)
  | obj (fields : JObj)
  deriving DecidableEq
inductive JArr : Type where
  | nil
  | cons (hd : JVal) (tl : JArr)
  deriving DecidableEq
inductive JObj : Type where
  | nil
  | cons (key : String) (val : JVal) (tl : JObj)
  deriving DecidableEq
end

/-- The elements of a JSON array, as a list. -/
def JArr.toList : JArr → List JVal
  | .nil => []
  | .cons x tl => x :: tl.toList

/-- Build a JSON array from a list. -/
def JArr.ofList : List JVal → JArr
  | [] => .nil
  | x :: tl => .cons x (JArr.ofList tl)

/-- The keys of a JSON object, in order. -/
def JObj.keys : JObj → List String
  | .nil => []
  | .cons k _ tl => k :: tl.keys

/-- Look up a key in a JSON object (`d[k]` on a Python dict). -/
def JObj.find : JObj → String → Option JVal
  | .nil, _ => none
  | .cons k v tl, k' => if k = k' then some v else tl.find k'

/-- `d[k] = v` on a Python dict: replace in place if the key is present
(keeping its position), otherwise append. -/
def JObj.setField : JObj → String → JVal → JObj
  | .nil, k, v => .cons k v .nil
  | .cons k' v' tl, k, v =>
      if k' = k then .cons k v tl else .cons k' v' (tl.setField k v)

/-! ### `json.dump(..., separators=(',',':'))` -/

/-- A code point as four lowercase hex characters (`\uXXXX`). -/
def hex4 (n : Nat) : List Char :=
  [hexDig (n / 4096 % 16), hexDig (n / 256 % 16), hexDig (n / 16 % 16), hexDig (n % 16)]

/-- How Python's JSON encoder (with the default `ensure_ascii=True`)
renders one character inside a string literal: printable ASCII other than
`"` and `\` is kept, the short escapes are used where they exist, and
everything else becomes `\uXXXX` (a surrogate pair beyond the BMP). -/
def escapeChar (c : Char) : List Char :=
  if c = '"' then ['\\', '"']
  else if c = '\\' then ['\\', '\\']
  else if c = '\n' then ['\\', 'n']
  else if c = '\r' then ['\\', 'r']
  else if c = '\t' then ['\\', 't']
  else if c.toNat = 8 then ['\\', 'b']
  else if c.toNat = 12 then ['\\', 'f']
  else if c.toNat < 32 ∨ c.toNat ≥ 127 then
    if c.toNat < 65536 then '\\' :: 'u' :: hex4 c.toNat
    else
      ('\\' :: 'u' :: hex4 (55296 + (c.toNat - 65536) / 1024)) ++
      ('\\' :: 'u' :: hex4 (56320 + (c.toNat - 65536) % 1024))
  else [c]

/-- A JSON string literal, quotes included. -/
def encodeStr (s : String) : List Char :=
  '"' :: (s.data.map escapeChar).flatten ++ ['"']

mutual
/-- Compact serialization of a JSON value, exactly as
`json.dump(..., separators=(',',':'))` renders it. -/
def dumpsV : JVal → List Char
  | .str s => encodeStr s
  | .arr xs => '[' :: dumpsA xs ++ [']']
  | .obj fs => Char.ofNat 123 :: dumpsO fs ++ [Char.ofNat 125]
def dumpsA : JArr → List Char
  | .nil => []
  | .cons x .nil => dumpsV x
  | .cons x (.cons y tl) => dumpsV x ++ ',' :: dumpsA (.cons y tl)
def dumpsO : JObj → List Char
  | .nil => []
  | .cons k v .nil => encodeStr k ++ ':' :: dumpsV v
  | .cons k v (.cons k' v' tl) =>
      encodeStr k ++ ':' :: dumpsV v ++ ',' :: dumpsO (.cons k' v' tl)
end

/-- `json.dump` output as a string. -/
def dumps (j : JVal) : String := ⟨dumpsV j⟩

example :
    dumps (.obj (.cons "files" (.obj (.cons "a.txt" (.str "x") .nil)) .nil)) =
    "\x7b\"files\":\x7b\"a.txt\":\"x\"\x7d\x7d" := by decide

/-! ### `json.load`

A recursive-descent parser for the documents `JVal` models, following
Python's `json.load`: whitespace between tokens, the standard string
escapes (including `\uXXXX` and surrogate pairs), rejection of raw control
characters inside strings, duplicate object keys collapsed as repeated
dict assignment does (first position, last value).  Recursion is driven by
explicit fuel so every function is structurally recursive. -/

def isWs (c : Char) : Bool := c = ' ' || c = '\t' || c = '\n' || c = '\r'

def skipWs : List Char → List Char
  | [] => []
  | c :: rest => if isWs c then skipWs rest else c :: rest

def fromHexDig? (c : Char) : Option Nat :=
  if 48 ≤ c.toNat ∧ c.toNat ≤ 57 then some (c.toNat - 48)
  else if 97 ≤ c.toNat ∧ c.toNat ≤ 102 then some (c.toNat - 87)
  else if 65 ≤ c.toNat ∧ c.toNat ≤ 70 then some (c.toNat - 55)
  else none

def hex4? (a b c d : Char) : Option Nat :=
  (fromHexDig? a).bind fun x =>
  (fromHexDig? b).bind fun y =>
  (fromHexDig? c).bind fun z =>
  (fromHexDig? d).bind fun w =>
  some (((x * 16 + y) * 16 + z) * 16 + w)

/-- Decode the low-surrogate half `\uXXXX` that must follow a high
surrogate `n`, combining the pair into one character. -/
def decodeLow (n : Nat) : List Char → Option (Char × List Char)
  | '\\' :: 'u' :: e :: f :: g :: h :: r2 =>
    (hex4? e f g h).bind fun m =>
      if 56320 ≤ m ∧ m < 57344 then
        some (Char.ofNat (65536 + (n - 55296) * 1024 + (m - 56320)), r2)
      else none
  | _ => none

/-- Decode a `\uXXXX` escape, the `\u` and its four hex digits already
split off: a BMP code point stands alone, a high surrogate must combine
with a following `\uXXXX` low surrogate (as in Python; a lone surrogate
yields no representable character in this model). -/
def decodeU (a b c d : Char) (r : List Char) : Option (Char × List Char) :=
  (hex4? a b c d).bind fun n =>
    if n < 55296 ∨ 57344 ≤ n then some (Char.ofNat n, r)
    else if n < 56320 then decodeLow n r
    else none

/-- Decode one escape sequence, the backslash already consumed: the
short escapes, plus `\uXXXX` via `decodeU`. -/
def afterEscape : List Char → Option (Char × List Char)
  | '"' :: r => some ('"', r)
  | '\\' :: r => some ('\\', r)
  | '/' :: r => some ('/', r)
  | 'n' :: r => some ('\n', r)
  | 'r' :: r => some ('\r', r)
  | 't' :: r => some ('\t', r)
  | 'b' :: r => some (Char.ofNat 8, r)
  | 'f' :: r => some (Char.ofNat 12, r)
  | 'u' :: a :: b :: c :: d :: r => decodeU a b c d r
  | _ => none

/-- Parse the body of a string literal (the opening quote already
consumed), returning the decoded characters and the rest of the input. -/
def parseStrBody : Nat → List Char → Option (List Char × List Char)
  | 0, _ => none
  | _ + 1, [] => none
  | fuel + 1, ch :: rest =>
    if ch = '"' then some ([], rest)
    else if ch = '\\' then
      (afterEscape rest).bind fun x =>
        (parseStrBody fuel x.2).map (fun p => (x.1 :: p.1, p.2))
    else if ch.toNat < 32 then none  -- json.load (strict) rejects raw control chars
    else (parseStrBody fuel rest).map (fun p => (ch :: p.1, p.2))

mutual
/-- Parse one JSON value (of the modelled shapes). -/
def parseVal : Nat → List Char → Option (JVal × List Char)
  | 0, _ => none
  | fuel + 1, input =>
    match skipWs input with
    | [] => none
    | c :: rest =>
      if c = '"' then
        (parseStrBody (rest.length + 1) rest).map (fun p => (.str ⟨p.1⟩, p.2))
      else if c = '[' then parseArrStart fuel rest
      else if c = Char.ofNat 123 then parseObjStart fuel rest
      else none
/-- Parse an array, the `[` already consumed. -/
def parseArrStart : Nat → List Char → Option (JVal × List Char)
  | 0, _ => none
  | fuel + 1, input =>
    match skipWs input with
    | [] => none
    | c :: rest =>
      if c = ']' then some (.arr .nil, rest)
      else
        match parseVal fuel (c :: rest) with
        | none => none
        | some (v, r) =>
          match parseArrRest fuel r with
          | none => none
          | some (tl, r2) => some (.arr (.cons v tl), r2)
/-- Parse the continuation of an array after one element: `,`-separated
further elements up to `]`. -/
def parseArrRest : Nat → List Char → Option (JArr × List Char)
  | 0, _ => none
  | fuel + 1, input =>
    match skipWs input with
    | [] => none
    | c :: rest =>
      if c = ']' then some (.nil, rest)
      else if c = ',' then
        match parseVal fuel rest with
        | none => none
        | some (v, r) =>
          match parseArrRest fuel r with
          | none => none
          | some (tl, r2) => some (.cons v tl, r2)
      else none
/-- Parse one `"key": value` pair of an object. -/
def parsePair : Nat → List Char → Option ((String × JVal) × List Char)
  | 0, _ => none
  | fuel + 1, input =>
    match skipWs input with
    | [] => none
    | c :: rest =>
      if c = '"' then
        match parseStrBody (rest.length + 1) rest with
        | none => none
        | some (k, r) =>
          match skipWs r with
          | ':' :: r2 =>
            match parseVal fuel r2 with
            | none => none
            | some (v, r3) => some ((⟨k⟩, v), r3)
          | _ => none
      else none
/-- Parse an object, the `\x7b` already consumed. -/
def parseObjStart : Nat → List Char → Option (JVal × List Char)
  | 0, _ => none
  | fuel + 1, input =>
    match skipWs input with
    | [] => none
    | c :: rest =>
      if c = Char.ofNat 125 then some (.obj .nil, rest)
      else
        match parsePair fuel (c :: rest) with
        | none => none
        | some (kv, r) => parseObjRest fuel (JObj.nil.setField kv.1 kv.2) r
/-- Parse the continuation of an object after at least one pair,
accumulating pairs by repeated dict assignment (so a duplicate key keeps
its first position and takes its last value, as in CPython). -/
def parseObjRest : Nat → JObj → List Char → Option (JVal × List Char)
  | 0, _, _ => none
  | fuel + 1, acc, input =>
    match skipWs input with
    | [] => none
    | c :: rest =>
      if c = Char.ofNat 125 then some (.obj acc, rest)
      else if c = ',' then
        match parsePair fuel rest with
        | none => none
        | some (kv, r) => parseObjRest fuel (acc.setField kv.1 kv.2) r
      else none
end

/-- `json.load`: parse a whole document, requiring only trailing
whitespace after the value. -/
def loads (s : String) : Option JVal :=
  match parseVal (2 * s.length + 2) s.data with
  | some (j, rest) => if skipWs rest = [] then some j else none
  | none => none

example : loads "\x7b\"files\":\x7b\"a.txt\":\"x\"\x7d\x7d" =
    some (.obj (.cons "files" (.obj (.cons "a.txt" (.str "x") .nil)) .nil)) := by
  decide

example : loads " [\"a\", \"b\"] " =
    some (.arr (.cons (.str "a") (.cons (.str "b") .nil))) := by decide

example : loads "\x7b\"a\":\"1\",\"b\":\"2\",\"a\":\"3\"\x7d" =
    some (.obj (.cons "a" (.str "3") (.cons "b" (.str "2") .nil))) := by decide

example : loads "nonsense" = none := by decide

/-! ### The filesystem model and the embedded script -/

/-- The state of one path on disk. -/
inductive FileState : Type where
  | absent
  | file (content : String)
  | dir
  | unreadable
  deriving DecidableEq, Repr

/-- A filesystem: the state of every path. -/
def FS : Type := String → FileState

/-- `os.path.exists`. -/
def FileState.toExists : FileState → Bool
  | .absent => false
  | _ => true

/-- `open(p).read()`: succeeds only on a readable regular file; opening a
directory or an unreadable file raises `OSError`. -/
def FileState.read? : FileState → Option String
  | .file c => some c
  | _ => none

/-- Overwrite one path (what `open(p, 'w')` + write does). -/
def setFile (fs : FS) (p : String) (st : FileState) : FS :=
  fun q => if q = p then st else fs q

/-- The unhandled Python exceptions the script can die with. -/
inductive PyErr : Type where
  | ioError    -- OSError: existing path that cannot be opened/read
  | jsonError  -- json.JSONDecodeError from `json.load`
  | keyError   -- KeyError: `data['files']` with the field absent
  | typeError  -- TypeError: indexing / os.path.exists on a wrong type
  deriving DecidableEq, Repr

/-- `data['files']` on the parsed document: a dict lookup, `KeyError` when
the key is absent, `TypeError` when `data` is not a dict. -/
def getItem : JVal → String → Except PyErr JVal
  | .obj fs, k =>
    match fs.find k with
    | some v => .ok v
    | none => .error .keyError
  | _, _ => .error .typeError

/-- `for filename in v`: dicts iterate their keys, lists their elements,
strings their characters (as one-character strings). -/
def iterItems : JVal → List JVal
  | .str s => s.data.map (fun c => .str ⟨[c]⟩)
  | .arr xs => xs.toList
  | .obj fs => fs.keys.map .str

/-- `hashlib.sha256(open(p,'rb').read()).hexdigest()` for a file whose
textual content is `content`. -/
def sha256File (content : String) : String := sha256HexBytes (utf8Encode content)

/-- `files[filename] = digest` on a Python dict: replace in place when
present, else append. -/
def listInsert : List (String × String) → String → String → List (String × String)
  | [], k, v => [(k, v)]
  | (k', v') :: tl, k, v =>
      if k' = k then (k, v) :: tl else (k', v') :: listInsert tl k v

/-- The rebuild loop (lines 17–21 of the script): for each item of
`data['files']`, skip it if the path does not exist, hash it if it is a
readable file, and abort with `OSError` if it exists but cannot be read.
A non-string item makes `os.path.exists` raise `TypeError`. -/
def hashLoop (fs : FS) : List JVal → List (String × String) →
    Option PyErr × List (String × String)
  | [], acc => (none, acc)
  | .str filename :: rest, acc =>
    match fs filename with
    | .absent => hashLoop fs rest acc
    | .file content => hashLoop fs rest (listInsert acc filename (sha256File content))
    | .dir => (some .ioError, acc)
    | .unreadable => (some .ioError, acc)
  | _ :: _, acc => (some .typeError, acc)

/-- The rebuilt `files` dict as a JSON object. -/
def filesToJObj : List (String × String) → JObj
  | [] => .nil
  | (k, v) :: tl => .cons k (.str v) (filesToJObj tl)

/-- The fixed manifest path (line 9/13/25 of the script). -/
def manifestPath : String := ".cargo-checksum.json"

/-- Lines 24–26 of the script: put the rebuilt dict back into the parsed
document (`data['files'] = files`) and overwrite the manifest with its
compact serialization.  The parsed document is an object whenever this
stage is reached (`data['files']` already succeeded). -/
def writeBack (fs : FS) (data : JVal) (files : List (String × String)) :
    Option PyErr × FS :=
  match data with
  | .obj flds =>
    (none, setFile fs manifestPath
      (.file (dumps (.obj (flds.setField "files" (.obj (filesToJObj files)))))))
  | _ => (some .typeError, fs)

/-- Lines 17–21 then 24–26: run the rebuild loop over `data['files']`;
an exception aborts the run with the filesystem untouched. -/
def afterFiles (fs : FS) (data filesVal : JVal) : Option PyErr × FS :=
  match hashLoop fs (iterItems filesVal) [] with
  | (some e, _) => (some e, fs)
  | (none, files) => writeBack fs data files

/-- Line 18 (`data['files']`) onwards. -/
def afterLoad (fs : FS) (data : JVal) : Option PyErr × FS :=
  match getItem data "files" with
  | .error e => (some e, fs)
  | .ok filesVal => afterFiles fs data filesVal

/-- The whole script (`update_checksum_file` in `fix_checksum.py`): the
resulting unhandled exception, if any, and the final filesystem.  Every
`(some e, fs)` arm returns the filesystem as it was when the exception
was raised — the script performs no write before line 25. -/
def update_checksum_file (fs : FS) : Option PyErr × FS :=
  if (fs manifestPath).toExists = false then (none, fs)          -- lines 9-10
  else
    match (fs manifestPath).read? with                            -- line 13
    | none => (some .ioError, fs)
    | some text =>
      match loads text with                                       -- line 14
      | none => (some .jsonError, fs)
      | some data => afterLoad fs data

/-! ### Well-formedness of documents

A document produced by `json.load` never has duplicate keys in an object
(Python dicts cannot).  `wfV` captures this invariant recursively. -/

/-- No duplicate keys at the top of an object. -/
def nodupKeysB : JObj → Bool
  | .nil => true
  | .cons k _ tl => !(tl.keys.contains k) && nodupKeysB tl

mutual
/-- All objects inside the value have duplicate-free keys. -/
def wfV : JVal → Bool
  | .str _ => true
  | .arr xs => wfA xs
  | .obj fs => nodupKeysB fs && wfO fs
def wfA : JArr → Bool
  | .nil => true
  | .cons x tl => wfV x && wfA tl
def wfO : JObj → Bool
  | .nil => true
  | .cons _ v tl => wfV v && wfO tl
end

/-! ### Object and association-list lemmas -/

theorem contains_iff_mem (l : List String) (a : String) :
    l.contains a = true ↔ a ∈ l := List.elem_iff

theorem contains_false_iff (l : List String) (a : String) :
    l.contains a = false ↔ a ∉ l := by
  rw [Bool.eq_false_iff, Ne, contains_iff_mem]

theorem JObj.mem_keys_of_find : ∀ {o : JObj} {k : String} {v : JVal},
    o.find k = some v → k ∈ o.keys
  | .nil, k, v, h => by simp [JObj.find] at h
  | .cons k' v' tl, k, v, h => by
    simp only [JObj.find] at h
    by_cases hk : k' = k
    · simp [JObj.keys, hk]
    · simp only [hk, if_false] at h
      simp [JObj.keys, JObj.mem_keys_of_find h]

theorem JObj.find_setField_self : ∀ (o : JObj) (k : String) (v : JVal),
    (o.setField k v).find k = some v
  | .nil, k, v => by simp [JObj.setField, JObj.find]
  | .cons k' v' tl, k, v => by
    simp only [JObj.setField]
    by_cases hk : k' = k
    · simp [hk, JObj.find]
    · simp [hk, JObj.find, JObj.find_setField_self tl k v]

theorem JObj.find_setField_ne : ∀ (o : JObj) {k k' : String} (v : JVal),
    k' ≠ k → (o.setField k v).find k' = o.find k'
  | .nil, k, k', v, h => by simp [JObj.setField, JObj.find, Ne.symm h]
  | .cons k'' v'' tl, k, k', v, h => by
    simp only [JObj.setField]
    by_cases hk : k'' = k
    · subst hk
      simp [JObj.find, Ne.symm h]
    · simp only [hk, if_false, JObj.find, JObj.find_setField_ne tl v h]

theorem JObj.keys_setField_of_mem : ∀ {o : JObj} {k : String} (v : JVal),
    k ∈ o.keys → (o.setField k v).keys = o.keys
  | .nil, k, v, h => by simp [JObj.keys] at h
  | .cons k' v' tl, k, v, h => by
    simp only [JObj.setField]
    by_cases hk : k' = k
    · simp [hk, JObj.keys]
    · simp only [JObj.keys, List.mem_cons] at h
      rcases h with h | h
      · exact absurd h.symm hk
      · simp [hk, JObj.keys, JObj.keys_setField_of_mem v h]

theorem JObj.setField_setField_self : ∀ (o : JObj) (k : String) (v v' : JVal),
    (o.setField k v).setField k v' = o.setField k v'
  | .nil, k, v, v' => by simp [JObj.setField]
  | .cons k'' v'' tl, k, v, v' => by
    simp only [JObj.setField]
    by_cases hk : k'' = k
    · simp [hk, JObj.setField]
    · simp [hk, JObj.setField, JObj.setField_setField_self tl k v v']

theorem JObj.keys_setField_sub : ∀ {o : JObj} {k x : String} (v : JVal),
    x ∈ (o.setField k v).keys → x ∈ o.keys ∨ x = k
  | .nil, k, x, v, h => by simpa [JObj.setField, JObj.keys] using h
  | .cons k' v' tl, k, x, v, h => by
    simp only [JObj.setField] at h
    by_cases hk : k' = k
    · simp only [hk, if_true, JObj.keys, List.mem_cons] at h
      rcases h with h | h
      · right; exact h
      · left
        simp only [JObj.keys, List.mem_cons]
        right; exact h
    · simp only [hk, if_false, JObj.keys, List.mem_cons] at h
      rcases h with h | h
      · left; simp [JObj.keys, h]
      · rcases JObj.keys_setField_sub v h with h' | h'
        · left; simp [JObj.keys, h']
        · right; exact h'

theorem nodupKeysB_setField : ∀ {o : JObj} (k : String) (v : JVal),
    nodupKeysB o = true → nodupKeysB (o.setField k v) = true
  | .nil, k, v, _ => by simp [JObj.setField, nodupKeysB, JObj.keys]
  | .cons k' v' tl, k, v, h => by
    simp only [nodupKeysB, Bool.and_eq_true, Bool.not_eq_true'] at h
    by_cases hk : k' = k
    · simp only [JObj.setField, hk, if_true, nodupKeysB, Bool.and_eq_true,
        Bool.not_eq_true']
      subst hk
      exact ⟨h.1, h.2⟩
    · simp only [JObj.setField, hk, if_false, nodupKeysB, Bool.and_eq_true,
        Bool.not_eq_true', nodupKeysB_setField k v h.2, and_true]
      by_contra hc
      simp only [Bool.not_eq_false, contains_iff_mem] at hc
      rcases JObj.keys_setField_sub v hc with h' | h'
      · exact (contains_false_iff _ _).mp h.1 h'
      · exact hk h'

theorem wfO_setField : ∀ {o : JObj} {k : String} {v : JVal},
    wfO o = true → wfV v = true → wfO (o.setField k v) = true
  | .nil, k, v, _, h2 => by simp [JObj.setField, wfO, h2]
  | .cons k' v' tl, k, v, h1, h2 => by
    simp only [wfO, Bool.and_eq_true] at h1
    by_cases hk : k' = k
    · simp [JObj.setField, hk, wfO, h2, h1.2]
    · simp [JObj.setField, hk, wfO, h1.1, wfO_setField h1.2 h2]

theorem wfO_find : ∀ {o : JObj} {k : String} {v : JVal},
    wfO o = true → o.find k = some v → wfV v = true
  | .nil, k, v, _, hf => by simp [JObj.find] at hf
  | .cons k' v' tl, k, v, h, hf => by
    simp only [wfO, Bool.and_eq_true] at h
    simp only [JObj.find] at hf
    by_cases hk : k' = k
    · simp only [hk, if_true, Option.some.injEq] at hf
      exact hf ▸ h.1
    · exact wfO_find h.2 (by simpa [hk] using hf)

theorem nodupKeysB_iff : ∀ (o : JObj), nodupKeysB o = true ↔ o.keys.Nodup
  | .nil => by simp [nodupKeysB, JObj.keys]
  | .cons k v tl => by
    simp [nodupKeysB, JObj.keys, List.nodup_cons, nodupKeysB_iff tl,
      contains_iff_mem, Bool.and_eq_true, and_comm]

/-! ### Characterizing the rebuild loop -/

/-- Lookup in the rebuilt `files` dict. -/
def lookupS : List (String × String) → String → Option String
  | [], _ => none
  | (k, v) :: tl, k' => if k = k' then some v else lookupS tl k'

/-- The digest the script records for an existing readable path. -/
def digestOf (fs : FS) (k : String) : String :=
  match fs k with
  | .file c => sha256File c
  | _ => ""

/-- A path the loop can process without aborting: missing, or a readable
regular file. -/
def readableOrAbsent (fs : FS) (k : String) : Prop :=
  fs k = .absent ∨ ∃ c, fs k = .file c

/-- The functional description of the rebuilt `files` dict: the listed
paths that exist, each with the digest of its current content. -/
def refreshedFiles (fs : FS) (items : List String) : List (String × String) :=
  (items.filter (fun k => (fs k).toExists)).map (fun k => (k, digestOf fs k))

@[simp] theorem toExists_absent : FileState.absent.toExists = false := rfl
@[simp] theorem toExists_file (c : String) : (FileState.file c).toExists = true := rfl
@[simp] theorem toExists_dir : FileState.dir.toExists = true := rfl
@[simp] theorem toExists_unreadable : FileState.unreadable.toExists = true := rfl

theorem listInsert_fresh : ∀ {F : List (String × String)} {k : String} (v : String),
    k ∉ F.map Prod.fst → listInsert F k v = F ++ [(k, v)]
  | [], k, v, _ => rfl
  | (k', v') :: tl, k, v, h => by
    simp only [List.map_cons, List.mem_cons] at h
    push_neg at h
    simp only [listInsert, Ne.symm h.1, if_false, List.cons_append,
      listInsert_fresh v h.2]

theorem mem_fst_listInsert : ∀ {F : List (String × String)} {k x : String} {v : String},
    x ∈ (listInsert F k v).map Prod.fst → x ∈ F.map Prod.fst ∨ x = k
  | [], k, x, v, h => by simpa [listInsert] using h
  | (k', v') :: tl, k, x, v, h => by
    simp only [listInsert] at h
    by_cases hk : k' = k
    · simp only [hk, if_true, List.map_cons, List.mem_cons] at h
      rcases h with h | h
      · right; exact h
      · left; simp [h]
    · simp only [hk, if_false, List.map_cons, List.mem_cons] at h
      rcases h with h | h
      · left; simp [h]
      · rcases mem_fst_listInsert h with h' | h'
        · left; simp [h']
        · right; exact h'

theorem keys_filesToJObj : ∀ (F : List (String × String)),
    (filesToJObj F).keys = F.map Prod.fst
  | [] => rfl
  | (k, v) :: tl => by simp [filesToJObj, JObj.keys, keys_filesToJObj tl]

theorem wfO_filesToJObj : ∀ (F : List (String × String)),
    wfO (filesToJObj F) = true
  | [] => rfl
  | (k, v) :: tl => by simp [filesToJObj, wfO, wfV, wfO_filesToJObj tl]

theorem nodupKeysB_filesToJObj {F : List (String × String)}
    (h : (F.map Prod.fst).Nodup) : nodupKeysB (filesToJObj F) = true := by
  rw [nodupKeysB_iff, keys_filesToJObj]
  exact h

theorem find_filesToJObj : ∀ (F : List (String × String)) (k : String),
    (filesToJObj F).find k = (lookupS F k).map JVal.str
  | [], k => rfl
  | (k', v') :: tl, k => by
    simp only [filesToJObj, JObj.find, lookupS]
    by_cases hk : k' = k
    · simp [hk]
    · simp [hk, find_filesToJObj tl k]

theorem hashLoop_ok (fs : FS) : ∀ (items : List String) (acc : List (String × String)),
    (∀ k ∈ items, readableOrAbsent fs k) → items.Nodup →
    (∀ k ∈ items, k ∉ acc.map Prod.fst) →
    hashLoop fs (items.map .str) acc = (none, acc ++ refreshedFiles fs items)
  | [], acc, _, _, _ => by simp [hashLoop, refreshedFiles]
  | k :: rest, acc, hr, hn, hd => by
    have hk := hr k (by simp)
    have hrest : ∀ k' ∈ rest, readableOrAbsent fs k' := fun k' h => hr k' (by simp [h])
    have hnrest : rest.Nodup := (List.nodup_cons.mp hn).2
    have hknotrest : k ∉ rest := (List.nodup_cons.mp hn).1
    rcases hk with hab | ⟨c, hc⟩
    · simp only [List.map_cons, hashLoop, hab]
      rw [hashLoop_ok fs rest acc hrest hnrest (fun k' h => hd k' (by simp [h]))]
      simp [refreshedFiles, hab, FileState.toExists]
    · simp only [List.map_cons, hashLoop, hc]
      have hfresh : k ∉ acc.map Prod.fst := hd k (by simp)
      rw [listInsert_fresh _ hfresh]
      have hd' : ∀ k' ∈ rest, k' ∉ (acc ++ [(k, sha256File c)]).map Prod.fst := by
        intro k' h
        simp only [List.map_append, List.mem_append, List.map_cons, List.map_nil,
          List.mem_singleton, not_or]
        exact ⟨hd k' (by simp [h]), by
          intro hx
          exact hknotrest (hx ▸ h)⟩
      rw [hashLoop_ok fs rest (acc ++ [(k, sha256File c)]) hrest hnrest hd']
      simp only [refreshedFiles, List.filter_cons, hc, FileState.toExists,
        if_true, List.map_cons, List.append_assoc, List.cons_append,
        List.nil_append]
      simp [digestOf, hc]

theorem hashLoop_readable_of_none (fs : FS) :
    ∀ (items : List String) (acc F : List (String × String)),
    hashLoop fs (items.map .str) acc = (none, F) →
    ∀ k ∈ items, readableOrAbsent fs k
  | [], acc, F, _, k, hk => by simp at hk
  | k' :: rest, acc, F, h, k, hk => by
    simp only [List.map_cons, hashLoop] at h
    rcases List.mem_cons.mp hk with rfl | hk'
    · cases hfs : fs k with
      | absent => exact Or.inl hfs
      | file c => exact Or.inr ⟨c, hfs⟩
      | dir => rw [hfs] at h; simp at h
      | unreadable => rw [hfs] at h; simp at h
    · cases hfs : fs k' with
      | absent =>
        rw [hfs] at h
        exact hashLoop_readable_of_none fs rest acc F h k hk'
      | file c =>
        rw [hfs] at h
        exact hashLoop_readable_of_none fs rest _ F h k hk'
      | dir => rw [hfs] at h; simp at h
      | unreadable => rw [hfs] at h; simp at h

theorem hashLoop_err (fs : FS) :
    ∀ (items : List String) (acc : List (String × String)),
    (∃ k ∈ items, fs k = .dir ∨ fs k = .unreadable) →
    (hashLoop fs (items.map .str) acc).1 = some .ioError
  | [], acc, h => by simp at h
  | k' :: rest, acc, h => by
    simp only [List.map_cons, hashLoop]
    cases hfs : fs k' with
    | absent =>
      rcases h with ⟨k, hk, hbad⟩
      rcases List.mem_cons.mp hk with rfl | hk'
      · rw [hfs] at hbad; rcases hbad with h | h <;> simp at h
      · exact hashLoop_err fs rest acc ⟨k, hk', hbad⟩
    | file c =>
      rcases h with ⟨k, hk, hbad⟩
      rcases List.mem_cons.mp hk with rfl | hk'
      · rw [hfs] at hbad; rcases hbad with h | h <;> simp at h
      · exact hashLoop_err fs rest _ ⟨k, hk', hbad⟩
    | dir => rfl
    | unreadable => rfl

theorem hashLoop_none_keys (fs : FS) :
    ∀ (items : List JVal) (acc F : List (String × String)),
    hashLoop fs items acc = (none, F) →
    ∀ x ∈ F.map Prod.fst, x ∈ acc.map Prod.fst ∨ JVal.str x ∈ items
  | [], acc, F, h, x, hx => by
    simp only [hashLoop, Prod.mk.injEq] at h
    exact Or.inl (h.2 ▸ hx)
  | .str f :: rest, acc, F, h, x, hx => by
    simp only [hashLoop] at h
    cases hfs : fs f with
    | absent =>
      rw [hfs] at h
      rcases hashLoop_none_keys fs rest acc F h x hx with h' | h'
      · exact Or.inl h'
      · exact Or.inr (by simp [h'])
    | file c =>
      rw [hfs] at h
      rcases hashLoop_none_keys fs rest _ F h x hx with h' | h'
      · rcases mem_fst_listInsert h' with h'' | h''
        · exact Or.inl h''
        · exact Or.inr (by simp [h''])
      · exact Or.inr (by simp [h'])
    | dir => rw [hfs] at h; simp at h
    | unreadable => rw [hfs] at h; simp at h
  | .arr xs :: rest, acc, F, h, x, hx => by simp [hashLoop] at h
  | .obj o :: rest, acc, F, h, x, hx => by simp [hashLoop] at h

theorem refreshedFiles_map_fst (fs : FS) (items : List String) :
    (refreshedFiles fs items).map Prod.fst =
      items.filter (fun k => (fs k).toExists) := by
  simp [refreshedFiles, List.map_map, Function.comp_def]

theorem refreshedFiles_of_pairs (fs : FS) :
    ∀ (F : List (String × String)),
    (∀ kv ∈ F, ∃ c, fs kv.1 = .file c ∧ kv.2 = sha256File c) →
    refreshedFiles fs (F.map Prod.fst) = F
  | [], _ => rfl
  | (k, v) :: tl, h => by
    obtain ⟨c, hc, hv⟩ := h (k, v) (by simp)
    simp only at hc hv
    have ih := refreshedFiles_of_pairs fs tl
      (fun kv hkv => h kv (List.mem_cons_of_mem _ hkv))
    have hd : digestOf fs k = v := by
      unfold digestOf
      rw [hc, hv]
    simp only [List.map_cons, refreshedFiles, List.filter_cons, hc, toExists_file,
      if_true, List.map_cons]
    rw [hd]
    exact congrArg (List.cons (k, v)) (by simpa [refreshedFiles] using ih)

theorem lookupS_refreshedFiles (fs : FS) :
    ∀ (items : List String) (p : String), p ∈ items → (fs p).toExists = true →
    lookupS (refreshedFiles fs items) p = some (digestOf fs p)
  | [], p, hp, _ => by simp at hp
  | k :: rest, p, hp, hex => by
    by_cases hk : k = p
    · subst hk
      simp [refreshedFiles, List.filter_cons, hex, lookupS]
    · have hp' : p ∈ rest := by
        rcases List.mem_cons.mp hp with h | h
        · exact absurd h.symm hk
        · exact h
      have ih := lookupS_refreshedFiles fs rest p hp' hex
      cases hke : (fs k).toExists with
      | false =>
        simpa [refreshedFiles, List.filter_cons, hke] using ih
      | true =>
        simpa [refreshedFiles, List.filter_cons, hke, lookupS, hk] using ih

/-! ### Documents produced by the parser are well-formed -/

theorem wfV_str (s : String) : wfV (.str s) = true := rfl

/-- Every document `json.load` produces is well-formed: objects are built
by repeated dict assignment, so their keys are duplicate-free at every
level. -/
theorem parse_wf : ∀ fuel : Nat,
    (∀ input j r, parseVal fuel input = some (j, r) → wfV j = true) ∧
    (∀ input j r, parseArrStart fuel input = some (j, r) → wfV j = true) ∧
    (∀ input tl r, parseArrRest fuel input = some (tl, r) → wfA tl = true) ∧
    (∀ input kv r, parsePair fuel input = some (kv, r) → wfV kv.2 = true) ∧
    (∀ input j r, parseObjStart fuel input = some (j, r) → wfV j = true) ∧
    (∀ acc input j r, nodupKeysB acc = true → wfO acc = true →
      parseObjRest fuel acc input = some (j, r) → wfV j = true)
  | 0 => by
    refine ⟨?_, ?_, ?_, ?_, ?_, ?_⟩ <;>
      · intros
        rename_i h
        simp [parseVal, parseArrStart, parseArrRest, parsePair, parseObjStart,
          parseObjRest] at h
  | fuel + 1 => by
    obtain ⟨ihV, ihAS, ihAR, ihP, ihOS, ihOR⟩ := parse_wf fuel
    refine ⟨?_, ?_, ?_, ?_, ?_, ?_⟩
    · intro input j r h
      rw [parseVal] at h
      split at h
      · exact absurd h (by simp)
      · split at h
        · rcases Option.map_eq_some'.mp h with ⟨p, hp, hj⟩
          simp only [Prod.mk.injEq] at hj
          rw [← hj.1]
          exact wfV_str _
        · split at h
          · exact ihAS _ _ _ h
          · split at h
            · exact ihOS _ _ _ h
            · exact absurd h (by simp)
    · intro input j r h
      rw [parseArrStart] at h
      split at h
      · exact absurd h (by simp)
      · split at h
        · simp only [Option.some.injEq, Prod.mk.injEq] at h
          rw [← h.1]
          rfl
        · split at h
          · exact absurd h (by simp)
          · rename_i v r1 hv
            split at h
            · exact absurd h (by simp)
            · rename_i tl r2 htl
              simp only [Option.some.injEq, Prod.mk.injEq] at h
              rw [← h.1]
              have h1 := ihV _ _ _ hv
              have h2 := ihAR _ _ _ htl
              simp only [wfV, wfA, Bool.and_eq_true]
              exact ⟨h1, h2⟩
    · intro input tl r h
      rw [parseArrRest] at h
      split at h
      · exact absurd h (by simp)
      · split at h
        · simp only [Option.some.injEq, Prod.mk.injEq] at h
          rw [← h.1]
          rfl
        · split at h
          · split at h
            · exact absurd h (by simp)
            · rename_i v r1 hv
              split at h
              · exact absurd h (by simp)
              · rename_i tl' r2 htl
                simp only [Option.some.injEq, Prod.mk.injEq] at h
                rw [← h.1]
                have h1 := ihV _ _ _ hv
                have h2 := ihAR _ _ _ htl
                simp only [wfA, Bool.and_eq_true]
                exact ⟨h1, h2⟩
          · exact absurd h (by simp)
    · intro input kv r h
      rw [parsePair] at h
      split at h
      · exact absurd h (by simp)
      · split at h
        · split at h
          · exact absurd h (by simp)
          · rename_i k r1 hk
            split at h
            · rename_i r2 hcolon
              split at h
              · exact absurd h (by simp)
              · rename_i v r3 hv
                simp only [Option.some.injEq, Prod.mk.injEq] at h
                rw [← h.1]
                exact ihV _ _ _ hv
            · exact absurd h (by simp)
        · exact absurd h (by simp)
    · intro input j r h
      rw [parseObjStart] at h
      split at h
      · exact absurd h (by simp)
      · split at h
        · simp only [Option.some.injEq, Prod.mk.injEq] at h
          rw [← h.1]
          rfl
        · split at h
          · exact absurd h (by simp)
          · rename_i kv r1 hkv
            refine ihOR _ _ _ _ ?_ ?_ h
            · simp [JObj.setField, nodupKeysB, JObj.keys]
            · have := ihP _ _ _ hkv
              simp [JObj.setField, wfO, this]
    · intro acc input j r hnd hwf h
      rw [parseObjRest] at h
      split at h
      · exact absurd h (by simp)
      · split at h
        · simp only [Option.some.injEq, Prod.mk.injEq] at h
          rw [← h.1]
          simp only [wfV, Bool.and_eq_true]
          exact ⟨hnd, hwf⟩
        · split at h
          · split at h
            · exact absurd h (by simp)
            · rename_i kv r1 hkv
              exact ihOR _ _ _ _ (nodupKeysB_setField _ _ hnd)
                (wfO_setField hwf (ihP _ _ _ hkv)) h
          · exact absurd h (by simp)

/-- `json.load` only returns well-formed documents. -/
theorem loads_wf {s : String} {j : JVal} (h : loads s = some j) : wfV j = true := by
  unfold loads at h
  split at h
  · rename_i j' r hp
    split at h
    · simp only [Option.some.injEq] at h
      exact h ▸ (parse_wf (2 * s.length + 2)).1 _ _ _ hp
    · exact absurd h (by simp)
  · exact absurd h (by simp)

/-! ### Running the script: stage equations and inversion -/

theorem iterItems_obj (ff : JObj) : iterItems (.obj ff) = ff.keys.map .str := rfl

theorem getItem_obj_some {flds : JObj} {k : String} {v : JVal}
    (h : flds.find k = some v) : getItem (.obj flds) k = .ok v := by
  simp [getItem, h]

theorem update_eq_loaded {fs : FS} {text : String}
    (h1 : fs manifestPath = .file text) :
    update_checksum_file fs =
      (match loads text with
       | none => (some .jsonError, fs)
       | some data => afterLoad fs data) := by
  unfold update_checksum_file
  rw [h1]
  rfl

theorem update_eq_afterLoad {fs : FS} {text : String} {data : JVal}
    (h1 : fs manifestPath = .file text) (h2 : loads text = some data) :
    update_checksum_file fs = afterLoad fs data := by
  rw [update_eq_loaded h1, h2]

theorem afterLoad_err {fs : FS} {data : JVal} {e : PyErr}
    (h : getItem data "files" = .error e) :
    afterLoad fs data = (some e, fs) := by
  unfold afterLoad
  rw [h]

theorem afterLoad_ok {fs : FS} {data fv : JVal}
    (h : getItem data "files" = .ok fv) :
    afterLoad fs data = afterFiles fs data fv := by
  unfold afterLoad
  rw [h]

theorem afterFiles_err {fs : FS} {data fv : JVal} {e : PyErr}
    {F : List (String × String)}
    (h : hashLoop fs (iterItems fv) [] = (some e, F)) :
    afterFiles fs data fv = (some e, fs) := by
  unfold afterFiles
  rw [h]

theorem afterFiles_ok {fs : FS} {data fv : JVal} {F : List (String × String)}
    (h : hashLoop fs (iterItems fv) [] = (none, F)) :
    afterFiles fs data fv = writeBack fs data F := by
  unfold afterFiles
  rw [h]

theorem writeBack_obj (fs : FS) (flds : JObj) (F : List (String × String)) :
    writeBack fs (.obj flds) F =
      (none, setFile fs manifestPath
        (.file (dumps (.obj (flds.setField "files" (.obj (filesToJObj F))))))) := rfl

/-- Dissect a run that ended without an exception on an existing,
parseable manifest: the parsed document must be an object, the `files`
lookup must have succeeded, the loop must have completed, and the script
wrote back the document with its `files` field replaced. -/
theorem run_inv {fs : FS} {text : String} {data : JVal}
    (h1 : fs manifestPath = .file text) (h2 : loads text = some data)
    (h0 : (update_checksum_file fs).1 = none) :
    ∃ flds fv F, data = .obj flds ∧ getItem data "files" = .ok fv ∧
      hashLoop fs (iterItems fv) [] = (none, F) ∧
      update_checksum_file fs =
        (none, setFile fs manifestPath
          (.file (dumps (.obj (flds.setField "files" (.obj (filesToJObj F))))))) := by
  rw [update_eq_afterLoad h1 h2] at h0 ⊢
  cases hg : getItem data "files" with
  | error e => rw [afterLoad_err hg] at h0; simp at h0
  | ok fv =>
    rw [afterLoad_ok hg] at h0 ⊢
    rcases hhl : hashLoop fs (iterItems fv) [] with ⟨err, F⟩
    cases err with
    | some e => rw [afterFiles_err hhl] at h0; simp at h0
    | none =>
      rw [afterFiles_ok hhl] at h0 ⊢
      cases data with
      | str s => simp [getItem] at hg
      | arr xs => simp [getItem] at hg
      | obj flds =>
        exact ⟨flds, fv, F, rfl, rfl, hhl, by rw [writeBack_obj]⟩

/-! ### Claim theorems: error paths -/

theorem update_absent_noop (fs : FS)
    (h : fs manifestPath = .absent) : update_checksum_file fs = (none, fs) := by
  unfold update_checksum_file
  rw [h]
  simp

/-- C4: if no manifest file exists at `.cargo-checksum.json`, the run is a
successful no-op — no error is raised and the filesystem is returned
entirely unchanged. -/
theorem C4_absent_manifest_noop (fs : FS)
    (h : fs manifestPath = .absent) : update_checksum_file fs = (none, fs) :=
  update_absent_noop fs h

theorem C4_absent_manifest_noop_witness :
    ((fun _ => FileState.absent : FS) manifestPath = .absent) ∧
      update_checksum_file (fun _ => FileState.absent) =
        (none, (fun _ => FileState.absent : FS)) :=
  ⟨rfl, C4_absent_manifest_noop (fun _ => FileState.absent) rfl⟩

/-- C6: a manifest that exists and parses to an object without the
required `files` field makes the run die with the `KeyError` from
`data['files']` (the spec's `MissingFieldError`), leaving the filesystem
— in particular the manifest — unchanged. -/
theorem C6_missing_files_field (fs : FS) (text : String) (flds : JObj)
    (h1 : fs manifestPath = .file text)
    (h2 : loads text = some (.obj flds))
    (h3 : flds.find "files" = none) :
    update_checksum_file fs = (some .keyError, fs) := by
  rw [update_eq_afterLoad h1 h2]
  exact afterLoad_err (by simp [getItem, h3])

/-- A manifest `\x7b"package":"demo"\x7d` with no `files` field. -/
def textNoFiles : String := "\x7b\"package\":\"demo\"\x7d"

/-- A workspace whose manifest exists with the given text and where no
other path exists. -/
def fsWithManifest (text : String) : FS :=
  fun p => if p = manifestPath then .file text else .absent

theorem C6_missing_files_field_witness :
    update_checksum_file (fsWithManifest textNoFiles) =
      (some .keyError, fsWithManifest textNoFiles) :=
  C6_missing_files_field (fsWithManifest textNoFiles) textNoFiles
    (.cons "package" (.str "demo") .nil) (by decide) (by decide) (by decide)

/-- C5: if some listed path exists but cannot be read, the run dies with
the `OSError` from `open` (the spec's fatal `IOError`) and the filesystem
— in particular the manifest file — is exactly as it was before the run:
the failure happens before the write step. -/
theorem C5_unreadable_aborts (fs : FS) (text : String) (flds ff : JObj)
    (k : String)
    (h1 : fs manifestPath = .file text)
    (h2 : loads text = some (.obj flds))
    (h3 : flds.find "files" = some (.obj ff))
    (h4 : k ∈ ff.keys) (h5 : fs k = .unreadable) :
    update_checksum_file fs = (some .ioError, fs) := by
  rw [update_eq_afterLoad h1 h2, afterLoad_ok (getItem_obj_some h3)]
  rcases hres : hashLoop fs (iterItems (.obj ff)) [] with ⟨e, F⟩
  have herr := hashLoop_err fs ff.keys [] ⟨k, h4, Or.inr h5⟩
  rw [iterItems_obj] at hres
  rw [hres] at herr
  simp only at herr
  subst herr
  exact afterFiles_err (by rw [iterItems_obj]; exact hres)

/-- A manifest listing `a.txt` and `locked.txt`. -/
def textTwoFiles : String :=
  "\x7b\"files\":\x7b\"a.txt\":\"deadbeef\",\"locked.txt\":\"cafebabe\"\x7d\x7d"

/-- Workspace for C5: `a.txt` is readable, `locked.txt` exists but cannot
be read. -/
def fsC5 : FS := fun p =>
  if p = manifestPath then .file textTwoFiles
  else if p = "a.txt" then .file "hello"
  else if p = "locked.txt" then .unreadable
  else .absent

theorem C5_unreadable_aborts_witness :
    update_checksum_file fsC5 = (some .ioError, fsC5) :=
  C5_unreadable_aborts fsC5 textTwoFiles
    (.cons "files"
      (.obj (.cons "a.txt" (.str "deadbeef")
        (.cons "locked.txt" (.str "cafebabe") .nil))) .nil)
    (.cons "a.txt" (.str "deadbeef") (.cons "locked.txt" (.str "cafebabe") .nil))
    "locked.txt" (by decide) (by decide) (by decide) (by decide) (by decide)

/-- C9: a listed path that is a directory passes the `os.path.exists`
check (it is neither dropped nor skipped), but the subsequent open for
reading fails, so the whole run aborts with the fatal `OSError` and the
manifest file is unchanged. -/
theorem C9_directory_aborts (fs : FS) (text : String) (flds ff : JObj)
    (k : String)
    (h1 : fs manifestPath = .file text)
    (h2 : loads text = some (.obj flds))
    (h3 : flds.find "files" = some (.obj ff))
    (h4 : k ∈ ff.keys) (h5 : fs k = .dir) :
    (fs k).toExists = true ∧
      update_checksum_file fs = (some .ioError, fs) := by
  refine ⟨by rw [h5]; rfl, ?_⟩
  rw [update_eq_afterLoad h1 h2, afterLoad_ok (getItem_obj_some h3)]
  rcases hres : hashLoop fs (iterItems (.obj ff)) [] with ⟨e, F⟩
  have herr := hashLoop_err fs ff.keys [] ⟨k, h4, Or.inl h5⟩
  rw [iterItems_obj] at hres
  rw [hres] at herr
  simp only at herr
  subst herr
  exact afterFiles_err (by rw [iterItems_obj]; exact hres)

/-- Workspace for C9: `a.txt` is readable, `locked.txt` is a directory. -/
def fsC9 : FS := fun p =>
  if p = manifestPath then .file textTwoFiles
  else if p = "a.txt" then .file "hello"
  else if p = "locked.txt" then .dir
  else .absent

theorem C9_directory_aborts_witness :
    (fsC9 "locked.txt").toExists = true ∧
      update_checksum_file fsC9 = (some .ioError, fsC9) :=
  C9_directory_aborts fsC9 textTwoFiles
    (.cons "files"
      (.obj (.cons "a.txt" (.str "deadbeef")
        (.cons "locked.txt" (.str "cafebabe") .nil))) .nil)
    (.cons "a.txt" (.str "deadbeef") (.cons "locked.txt" (.str "cafebabe") .nil))
    "locked.txt" (by decide) (by decide) (by decide) (by decide) (by decide)

/-! ### Digest format -/

theorem hexDig_mem (x : Nat) : hexDig (x % 16) ∈ "0123456789abcdef".data := by
  have h : x % 16 < 16 := Nat.mod_lt _ (by norm_num)
  set m := x % 16 with hm
  interval_cases m <;> decide

theorem word8Hex_mem (n : Nat) (c : Char) (h : c ∈ word8Hex n) :
    c ∈ "0123456789abcdef".data := by
  simp only [word8Hex, List.mem_cons, List.not_mem_nil, or_false] at h
  rcases h with h | h | h | h | h | h | h | h <;> (subst h; exact hexDig_mem _)

theorem sha256Hex_length (msg : List Nat) :
    (sha256HexBytes msg).data.length = 64 := by
  simp [sha256HexBytes, word8Hex]

theorem sha256Hex_lowercase (msg : List Nat) :
    ∀ c ∈ (sha256HexBytes msg).data, c ∈ "0123456789abcdef".data := by
  intro c hc
  simp only [sha256HexBytes, List.append_assoc] at hc
  rw [List.mem_append] at hc
  rcases hc with h | hc
  · exact word8Hex_mem _ _ h
  rw [List.mem_append] at hc
  rcases hc with h | hc
  · exact word8Hex_mem _ _ h
  rw [List.mem_append] at hc
  rcases hc with h | hc
  · exact word8Hex_mem _ _ h
  rw [List.mem_append] at hc
  rcases hc with h | hc
  · exact word8Hex_mem _ _ h
  rw [List.mem_append] at hc
  rcases hc with h | hc
  · exact word8Hex_mem _ _ h
  rw [List.mem_append] at hc
  rcases hc with h | hc
  · exact word8Hex_mem _ _ h
  rw [List.mem_append] at hc
  rcases hc with h | h
  · exact word8Hex_mem _ _ h
  · exact word8Hex_mem _ _ h

/-! ### More inversions -/

theorem getItem_obj_inv {flds : JObj} {k : String} {fv : JVal}
    (h : getItem (.obj flds) k = .ok fv) : flds.find k = some fv := by
  simp only [getItem] at h
  split at h
  · rename_i v hv
    simp only [Except.ok.injEq] at h
    exact h ▸ hv
  · exact absurd h (by simp)

theorem loads_obj_wf {s : String} {flds : JObj}
    (h : loads s = some (.obj flds)) :
    nodupKeysB flds = true ∧ wfO flds = true := by
  have := loads_wf h
  simpa [wfV, Bool.and_eq_true] using this

theorem iterItems_arr (xs : JArr) : iterItems (.arr xs) = xs.toList := rfl

/-! ### Claim theorems: the successful path -/

/-- C1: on a successful refresh of an existing well-formed manifest, the
written `files` mapping has exactly the previously listed keys whose
paths exist on disk (in order): existing paths are retained, missing ones
are dropped, and nothing else is ever added. -/
theorem C1_output_keys_are_existing_inputs (fs : FS) (text : String)
    (flds ff : JObj)
    (h1 : fs manifestPath = .file text)
    (h2 : loads text = some (.obj flds))
    (h3 : flds.find "files" = some (.obj ff))
    (h0 : (update_checksum_file fs).1 = none) :
    ∃ F, update_checksum_file fs =
        (none, setFile fs manifestPath
          (.file (dumps (.obj (flds.setField "files" (.obj (filesToJObj F))))))) ∧
      F.map Prod.fst = ff.keys.filter (fun k => (fs k).toExists) := by
  obtain ⟨flds', fv, F, hdata, hget, hloop, hupd⟩ := run_inv h1 h2 h0
  obtain rfl : flds = flds' := by cases hdata; rfl
  obtain rfl : fv = .obj ff := by
    rw [getItem_obj_some h3] at hget
    cases hget
    rfl
  rw [iterItems_obj] at hloop
  have hread := hashLoop_readable_of_none fs ff.keys [] F hloop
  have hnd : ff.keys.Nodup := by
    have hwf := (loads_obj_wf h2).2
    have := wfO_find hwf h3
    simp only [wfV, Bool.and_eq_true] at this
    exact (nodupKeysB_iff ff).mp this.1
  have hok := hashLoop_ok fs ff.keys [] hread hnd (by simp)
  rw [hloop] at hok
  simp only [Prod.mk.injEq, List.nil_append, true_and] at hok
  refine ⟨F, hupd, ?_⟩
  rw [hok]
  exact refreshedFiles_map_fst fs ff.keys

/-- Witness workspace for the success path: `a.txt` exists, `missing.txt`
does not. -/
def textC8 : String :=
  "\x7b\"files\":\x7b\"a.txt\":\"deadbeef\",\"missing.txt\":\"cafebabe\"\x7d\x7d"

def fsC8 : FS := fun p =>
  if p = manifestPath then .file textC8
  else if p = "a.txt" then .file "hello"
  else .absent

def ffC8 : JObj :=
  .cons "a.txt" (.str "deadbeef") (.cons "missing.txt" (.str "cafebabe") .nil)

def fldsC8 : JObj := .cons "files" (.obj ffC8) .nil

theorem C1_output_keys_are_existing_inputs_witness :
    ∃ F, update_checksum_file fsC8 =
        (none, setFile fsC8 manifestPath
          (.file (dumps (.obj (fldsC8.setField "files" (.obj (filesToJObj F))))))) ∧
      F.map Prod.fst = ffC8.keys.filter (fun k => (fsC8 k).toExists) :=
  C1_output_keys_are_existing_inputs fsC8 textC8 fldsC8 ffC8
    (by decide) (by decide) (by decide) (by decide)

/-- C2: every retained path is recorded with the SHA-256 digest, in
lowercase hex with no prefix, of the file's current byte content —
computed afresh from the bytes, independent of the digest previously
stored in the manifest. -/
theorem C2_digest_of_current_content (fs : FS) (text : String)
    (flds ff : JObj) (p c : String)
    (h1 : fs manifestPath = .file text)
    (h2 : loads text = some (.obj flds))
    (h3 : flds.find "files" = some (.obj ff))
    (h0 : (update_checksum_file fs).1 = none)
    (hp : p ∈ ff.keys) (hc : fs p = .file c) :
    ∃ F, update_checksum_file fs =
        (none, setFile fs manifestPath
          (.file (dumps (.obj (flds.setField "files" (.obj (filesToJObj F))))))) ∧
      lookupS F p = some (sha256HexBytes (utf8Encode c)) ∧
      (sha256HexBytes (utf8Encode c)).data.length = 64 ∧
      ∀ ch ∈ (sha256HexBytes (utf8Encode c)).data, ch ∈ "0123456789abcdef".data := by
  obtain ⟨flds', fv, F, hdata, hget, hloop, hupd⟩ := run_inv h1 h2 h0
  obtain rfl : flds = flds' := by cases hdata; rfl
  obtain rfl : fv = .obj ff := by
    rw [getItem_obj_some h3] at hget
    cases hget
    rfl
  rw [iterItems_obj] at hloop
  have hread := hashLoop_readable_of_none fs ff.keys [] F hloop
  have hnd : ff.keys.Nodup := by
    have hwf := (loads_obj_wf h2).2
    have := wfO_find hwf h3
    simp only [wfV, Bool.and_eq_true] at this
    exact (nodupKeysB_iff ff).mp this.1
  have hok := hashLoop_ok fs ff.keys [] hread hnd (by simp)
  rw [hloop] at hok
  simp only [Prod.mk.injEq, List.nil_append, true_and] at hok
  refine ⟨F, hupd, ?_, sha256Hex_length _, sha256Hex_lowercase _⟩
  rw [hok, lookupS_refreshedFiles fs ff.keys p hp (by rw [hc]; rfl)]
  unfold digestOf
  rw [hc]
  rfl

theorem C2_digest_of_current_content_witness :
    ∃ F, update_checksum_file fsC8 =
        (none, setFile fsC8 manifestPath
          (.file (dumps (.obj (fldsC8.setField "files" (.obj (filesToJObj F))))))) ∧
      lookupS F "a.txt" = some (sha256HexBytes (utf8Encode "hello")) ∧
      (sha256HexBytes (utf8Encode "hello")).data.length = 64 ∧
      ∀ ch ∈ (sha256HexBytes (utf8Encode "hello")).data,
        ch ∈ "0123456789abcdef".data :=
  C2_digest_of_current_content fsC8 textC8 fldsC8 ffC8 "a.txt" "hello"
    (by decide) (by decide) (by decide) (by decide) (by decide) (by decide)

/-- C7: a successful refresh only replaces the `files` field of the
parsed document before writing it back: every other top-level field keeps
its value and its position, and the key order of the document is
unchanged. -/
theorem C7_other_fields_preserved (fs : FS) (text : String) (flds : JObj)
    (h1 : fs manifestPath = .file text)
    (h2 : loads text = some (.obj flds))
    (h0 : (update_checksum_file fs).1 = none) :
    ∃ F, update_checksum_file fs =
        (none, setFile fs manifestPath
          (.file (dumps (.obj (flds.setField "files" (.obj (filesToJObj F))))))) ∧
      (∀ k, k ≠ "files" →
        (flds.setField "files" (.obj (filesToJObj F))).find k = flds.find k) ∧
      (flds.setField "files" (.obj (filesToJObj F))).keys = flds.keys := by
  obtain ⟨flds', fv, F, hdata, hget, hloop, hupd⟩ := run_inv h1 h2 h0
  obtain rfl : flds = flds' := by cases hdata; rfl
  have hfind := getItem_obj_inv hget
  refine ⟨F, hupd, ?_, ?_⟩
  · intro k hk
    exact JObj.find_setField_ne flds _ hk
  · exact JObj.keys_setField_of_mem _ (JObj.mem_keys_of_find hfind)

/-- A manifest with a `package` field besides `files`. -/
def textC7 : String :=
  "\x7b\"package\":\"demo\",\"files\":\x7b\"a.txt\":\"deadbeef\"\x7d\x7d"

def fsC7 : FS := fun p =>
  if p = manifestPath then .file textC7
  else if p = "a.txt" then .file "hello"
  else .absent

def fldsC7 : JObj :=
  .cons "package" (.str "demo")
    (.cons "files" (.obj (.cons "a.txt" (.str "deadbeef") .nil)) .nil)

theorem C7_other_fields_preserved_witness :
    ∃ F, update_checksum_file fsC7 =
        (none, setFile fsC7 manifestPath
          (.file (dumps (.obj (fldsC7.setField "files" (.obj (filesToJObj F))))))) ∧
      (∀ k, k ≠ "files" →
        (fldsC7.setField "files" (.obj (filesToJObj F))).find k = fldsC7.find k) ∧
      (fldsC7.setField "files" (.obj (filesToJObj F))).keys = fldsC7.keys :=
  C7_other_fields_preserved fsC7 textC7 fldsC7 (by decide) (by decide) (by decide)

/-- C10: the type of `files` is never validated — only its presence.  A
manifest whose `files` value is a JSON array of (distinct) path strings is
processed without a type error, and the written `files` field is the
mapping from the listed paths that exist to their freshly computed
digests. -/
theorem C10_files_may_be_array (fs : FS) (text : String) (flds : JObj)
    (xs : JArr) (paths : List String)
    (h1 : fs manifestPath = .file text)
    (h2 : loads text = some (.obj flds))
    (h3 : flds.find "files" = some (.arr xs))
    (hxs : xs.toList = paths.map .str)
    (hnd : paths.Nodup)
    (hr : ∀ k ∈ paths, readableOrAbsent fs k) :
    update_checksum_file fs =
      (none, setFile fs manifestPath
        (.file (dumps (.obj (flds.setField "files"
          (.obj (filesToJObj (refreshedFiles fs paths)))))))) ∧
    (∀ p ∈ paths, (fs p).toExists = true →
      lookupS (refreshedFiles fs paths) p = some (digestOf fs p)) ∧
    (refreshedFiles fs paths).map Prod.fst =
      paths.filter (fun k => (fs k).toExists) := by
  refine ⟨?_, fun p hp hex => lookupS_refreshedFiles fs paths p hp hex,
    refreshedFiles_map_fst fs paths⟩
  rw [update_eq_afterLoad h1 h2, afterLoad_ok (getItem_obj_some h3),
    afterFiles_ok (by
      rw [iterItems_arr, hxs]
      exact hashLoop_ok fs paths [] hr hnd (by simp)),
    writeBack_obj, List.nil_append]

/-- A manifest whose `files` field is an array of paths. -/
def textC10 : String := "\x7b\"files\":[\"a.txt\",\"missing.txt\"]\x7d"

def fsC10 : FS := fun p =>
  if p = manifestPath then .file textC10
  else if p = "a.txt" then .file "hello"
  else .absent

def fldsC10 : JObj :=
  .cons "files" (.arr (.cons (.str "a.txt") (.cons (.str "missing.txt") .nil))) .nil

theorem C10_files_may_be_array_witness :
    update_checksum_file fsC10 =
      (none, setFile fsC10 manifestPath
        (.file (dumps (.obj (fldsC10.setField "files"
          (.obj (filesToJObj (refreshedFiles fsC10 ["a.txt", "missing.txt"])))))))) ∧
    (∀ p ∈ ["a.txt", "missing.txt"], (fsC10 p).toExists = true →
      lookupS (refreshedFiles fsC10 ["a.txt", "missing.txt"]) p =
        some (digestOf fsC10 p)) ∧
    (refreshedFiles fsC10 ["a.txt", "missing.txt"]).map Prod.fst =
      ["a.txt", "missing.txt"].filter (fun k => (fsC10 k).toExists) :=
  C10_files_may_be_array fsC10 textC10 fldsC10
    (.cons (.str "a.txt") (.cons (.str "missing.txt") .nil))
    ["a.txt", "missing.txt"]
    (by decide) (by decide) (by decide) (by decide) (by decide)
    (by
      intro k hk
      simp only [List.mem_cons, List.not_mem_nil, or_false] at hk
      rcases hk with rfl | rfl
      · exact Or.inr ⟨"hello", by decide⟩
      · exact Or.inl (by decide))

/-- C8: the concrete scenario from the spec.  With `a.txt` present with
content `hello` and `missing.txt` deleted, the run succeeds and writes
back exactly the compact document with the recomputed digest and without
`missing.txt` — no space after `,` or `:`, keys in input order. -/
theorem C8_concrete_output :
    (update_checksum_file fsC8).1 = none ∧
    (update_checksum_file fsC8).2 manifestPath =
      .file ("\x7b\"files\":\x7b\"a.txt\":" ++
        "\"2cf24dba5fb0a30e26e83b2ac5b9e29e1b161e5c1fa7425e73043362938b9824\"\x7d\x7d") := by
  constructor
  · decide
  · decide

/-! ### Idempotence fails on a self-listing manifest -/

/-- A manifest whose `files` mapping lists the manifest path itself. -/
def textSelf : String := "\x7b\"files\":\x7b\".cargo-checksum.json\":\"x\"\x7d\x7d"

/-- Workspace whose manifest lists itself; no other path exists. -/
def fsSelf : FS := fun p => if p = manifestPath then .file textSelf else .absent

/-- C3 counterexample: on the workspace whose manifest lists its own
path, both runs succeed, yet the second run rewrites the manifest to a
different document than the first — the first run changed the manifest's
bytes, so the second run records a different digest for it.  Refreshing
is therefore not idempotent on every workspace. -/
theorem C3_counterexample_self_listing :
    (update_checksum_file fsSelf).1 = none ∧
    (update_checksum_file (update_checksum_file fsSelf).2).1 = none ∧
    (update_checksum_file (update_checksum_file fsSelf).2).2 manifestPath ≠
      (update_checksum_file fsSelf).2 manifestPath := by
  exact ⟨by decide, by decide, by decide⟩

/-! ### The serializer round-trips through the parser: strings -/

theorem char_valid_cases (c : Char) :
    c.toNat < 55296 ∨ (57343 < c.toNat ∧ c.toNat < 1114112) := by
  rcases c.valid with h | h
  · left; exact h
  · right; exact ⟨h.1, h.2⟩

theorem fromHexDig_hexDig {n : Nat} (h : n < 16) :
    fromHexDig? (hexDig n) = some n := by
  interval_cases n <;> decide

theorem hex4_round {n : Nat} (h : n < 65536) :
    hex4? (hexDig (n / 4096 % 16)) (hexDig (n / 256 % 16))
      (hexDig (n / 16 % 16)) (hexDig (n % 16)) = some n := by
  unfold hex4?
  rw [fromHexDig_hexDig (Nat.mod_lt _ (by norm_num)),
      fromHexDig_hexDig (Nat.mod_lt _ (by norm_num)),
      fromHexDig_hexDig (Nat.mod_lt _ (by norm_num)),
      fromHexDig_hexDig (Nat.mod_lt _ (by norm_num))]
  simp only [Option.some_bind, Option.some.injEq]
  omega

theorem decodeU_bmp (c : Char) (hbmp : c.toNat < 65536) (r : List Char) :
    decodeU (hexDig (c.toNat / 4096 % 16)) (hexDig (c.toNat / 256 % 16))
      (hexDig (c.toNat / 16 % 16)) (hexDig (c.toNat % 16)) r = some (c, r) := by
  unfold decodeU
  rw [hex4_round hbmp]
  have hval := char_valid_cases c
  simp only [Option.some_bind]
  rw [if_pos (by omega), Char.ofNat_toNat]

theorem decodeLow_round (n m : Nat) (h1 : 56320 ≤ m) (h2 : m < 57344)
    (rest : List Char) :
    decodeLow n ('\\' :: 'u' :: hex4 m ++ rest) =
      some (Char.ofNat (65536 + (n - 55296) * 1024 + (m - 56320)), rest) := by
  simp only [hex4, List.cons_append, List.nil_append, decodeLow]
  rw [hex4_round (by omega)]
  simp only [Option.some_bind]
  rw [if_pos ⟨h1, h2⟩]

theorem decodeU_supp (c : Char) (hsup : 65536 ≤ c.toNat) (rest : List Char) :
    decodeU (hexDig ((55296 + (c.toNat - 65536) / 1024) / 4096 % 16))
      (hexDig ((55296 + (c.toNat - 65536) / 1024) / 256 % 16))
      (hexDig ((55296 + (c.toNat - 65536) / 1024) / 16 % 16))
      (hexDig ((55296 + (c.toNat - 65536) / 1024) % 16))
      ('\\' :: 'u' :: hex4 (56320 + (c.toNat - 65536) % 1024) ++ rest) =
      some (c, rest) := by
  have hval := char_valid_cases c
  have hq : (c.toNat - 65536) / 1024 < 1024 := by omega
  have hm : (c.toNat - 65536) % 1024 < 1024 := Nat.mod_lt _ (by norm_num)
  have h65 : 55296 + (c.toNat - 65536) / 1024 < 65536 := by omega
  unfold decodeU
  rw [hex4_round h65, Option.some_bind]
  rw [if_neg (by omega), if_pos (by omega),
    decodeLow_round _ _ (by omega) (by omega)]
  have harith : 65536 + (55296 + (c.toNat - 65536) / 1024 - 55296) * 1024 +
      (56320 + (c.toNat - 65536) % 1024 - 56320) = c.toNat := by
    have := Nat.div_add_mod (c.toNat - 65536) 1024
    omega
  rw [harith, Char.ofNat_toNat]

theorem afterEscape_u (a b c d : Char) (T : List Char) :
    afterEscape ('u' :: a :: b :: c :: d :: T) = decodeU a b c d T := rfl

/-- One step of `parseStrBody` across a decoded escape sequence. -/
theorem strBody_escape_step (f : Nat) (ch : Char) (T r : List Char)
    (hdec : afterEscape T = some (ch, r)) :
    parseStrBody (f + 1) ('\\' :: T) =
      (parseStrBody f r).map (fun p => (ch :: p.1, p.2)) := by
  have hstepE : parseStrBody (f + 1) ('\\' :: T) =
      (afterEscape T).bind fun x =>
        (parseStrBody f x.2).map (fun p => (x.1 :: p.1, p.2)) := rfl
  rw [hstepE, hdec, Option.some_bind]

/-- One step of `parseStrBody` across a plain character. -/
theorem strBody_plain_step (f : Nat) (ch : Char) (T : List Char)
    (n1 : ¬ ch = '"') (n2 : ¬ ch = '\\') (n3 : ¬ ch.toNat < 32) :
    parseStrBody (f + 1) (ch :: T) =
      (parseStrBody f T).map (fun p => (ch :: p.1, p.2)) := by
  rw [parseStrBody, if_neg n1, if_neg n2, if_neg n3]

/-- Parsing the escaped body of a string literal recovers exactly the
original characters. -/
theorem parseStrBody_escape : ∀ (l : List Char) (rest : List Char) (fuel : Nat),
    l.length < fuel →
    parseStrBody fuel ((l.map escapeChar).flatten ++ '"' :: rest) = some (l, rest)
  | [], rest, fuel, h => by
    obtain ⟨f, rfl⟩ : ∃ f, fuel = f + 1 := ⟨fuel - 1, by omega⟩
    simp only [List.map_nil, List.flatten_nil, List.nil_append]
    rfl
  | c :: l', rest, fuel, h => by
    obtain ⟨f, rfl⟩ : ∃ f, fuel = f + 1 := ⟨fuel - 1, by omega⟩
    have IH := parseStrBody_escape l' rest f
      (by simp only [List.length_cons] at h; omega)
    simp only [List.map_cons, List.flatten_cons, List.append_assoc]
    by_cases h1 : c = '"'
    · subst h1
      rw [show escapeChar '"' = ['\\', '"'] from by decide]
      simp only [List.cons_append, List.nil_append]
      rw [strBody_escape_step f '"'
        ('"' :: ((l'.map escapeChar).flatten ++ '"' :: rest)) _ rfl, IH]
      rfl
    · by_cases h2 : c = '\\'
      · subst h2
        rw [show escapeChar '\\' = ['\\', '\\'] from by decide]
        simp only [List.cons_append, List.nil_append]
        rw [strBody_escape_step f '\\'
          ('\\' :: ((l'.map escapeChar).flatten ++ '"' :: rest)) _ rfl, IH]
        rfl
      · by_cases h3 : c = '\n'
        · subst h3
          rw [show escapeChar '\n' = ['\\', 'n'] from by decide]
          simp only [List.cons_append, List.nil_append]
          rw [strBody_escape_step f '\n'
            ('n' :: ((l'.map escapeChar).flatten ++ '"' :: rest)) _ rfl, IH]
          rfl
        · by_cases h4 : c = '\r'
          · subst h4
            rw [show escapeChar '\r' = ['\\', 'r'] from by decide]
            simp only [List.cons_append, List.nil_append]
            rw [strBody_escape_step f '\r'
              ('r' :: ((l'.map escapeChar).flatten ++ '"' :: rest)) _ rfl, IH]
            rfl
          · by_cases h5 : c = '\t'
            · subst h5
              rw [show escapeChar '\t' = ['\\', 't'] from by decide]
              simp only [List.cons_append, List.nil_append]
              rw [strBody_escape_step f '\t'
                ('t' :: ((l'.map escapeChar).flatten ++ '"' :: rest)) _ rfl, IH]
              rfl
            · by_cases h6 : c.toNat = 8
              · have hc : c = Char.ofNat 8 := by rw [← Char.ofNat_toNat c, h6]
                subst hc
                rw [show escapeChar (Char.ofNat 8) = ['\\', 'b'] from by decide]
                simp only [List.cons_append, List.nil_append]
                rw [strBody_escape_step f (Char.ofNat 8)
                  ('b' :: ((l'.map escapeChar).flatten ++ '"' :: rest)) _ rfl, IH]
                rfl
              · by_cases h7 : c.toNat = 12
                · have hc : c = Char.ofNat 12 := by rw [← Char.ofNat_toNat c, h7]
                  subst hc
                  rw [show escapeChar (Char.ofNat 12) = ['\\', 'f'] from by decide]
                  simp only [List.cons_append, List.nil_append]
                  rw [strBody_escape_step f (Char.ofNat 12)
                    ('f' :: ((l'.map escapeChar).flatten ++ '"' :: rest)) _ rfl, IH]
                  rfl
                · by_cases h8 : c.toNat < 32 ∨ 127 ≤ c.toNat
                  · by_cases h9 : c.toNat < 65536
                    · -- escaped as a single \uXXXX
                      rw [show escapeChar c = '\\' :: 'u' :: hex4 c.toNat by
                        unfold escapeChar
                        rw [if_neg h1, if_neg h2, if_neg h3, if_neg h4,
                          if_neg h5, if_neg h6, if_neg h7, if_pos h8, if_pos h9]]
                      simp only [hex4, List.cons_append, List.nil_append]
                      rw [strBody_escape_step f c _ _
                        ((afterEscape_u _ _ _ _ _).trans
                          (decodeU_bmp c h9 ((l'.map escapeChar).flatten ++ '"' :: rest))),
                        IH]
                      rfl
                    · -- escaped as a surrogate pair
                      push_neg at h9
                      rw [show escapeChar c =
                          ('\\' :: 'u' :: hex4 (55296 + (c.toNat - 65536) / 1024)) ++
                          ('\\' :: 'u' :: hex4 (56320 + (c.toNat - 65536) % 1024)) by
                        unfold escapeChar
                        rw [if_neg h1, if_neg h2, if_neg h3, if_neg h4,
                          if_neg h5, if_neg h6, if_neg h7, if_pos h8,
                          if_neg (by omega)]]
                      have hdec := decodeU_supp c h9
                        ((l'.map escapeChar).flatten ++ '"' :: rest)
                      simp only [hex4, List.cons_append, List.nil_append,
                        List.append_assoc] at hdec ⊢
                      rw [strBody_escape_step f c _ _ ((afterEscape_u _ _ _ _ _).trans hdec), IH]
                      rfl
                  · -- plain printable ASCII character
                    rw [show escapeChar c = [c] by
                      unfold escapeChar
                      rw [if_neg h1, if_neg h2, if_neg h3, if_neg h4,
                        if_neg h5, if_neg h6, if_neg h7, if_neg h8]]
                    simp only [List.cons_append, List.nil_append]
                    rw [strBody_plain_step f c _ h1 h2
                      (by push_neg at h8; omega), IH]
                    rfl

/-! ### The serializer round-trips through the parser: values -/

mutual
def sizeV : JVal → Nat
  | .str _ => 1
  | .arr xs => 1 + sizeA xs
  | .obj fs => 1 + sizeO fs
def sizeA : JArr → Nat
  | .nil => 1
  | .cons x tl => 1 + sizeV x + sizeA tl
def sizeO : JObj → Nat
  | .nil => 1
  | .cons _ v tl => 1 + sizeV v + sizeO tl
end

theorem sizeV_pos : ∀ j : JVal, 1 ≤ sizeV j
  | .str _ => by unfold sizeV; omega
  | .arr _ => by unfold sizeV; omega
  | .obj _ => by unfold sizeV; omega

theorem sizeA_pos : ∀ xs : JArr, 1 ≤ sizeA xs
  | .nil => by unfold sizeA; omega
  | .cons _ _ => by unfold sizeA; omega

theorem sizeO_pos : ∀ fs : JObj, 1 ≤ sizeO fs
  | .nil => by unfold sizeO; omega
  | .cons _ _ _ => by unfold sizeO; omega

/-- The `,`-separated continuation of a serialized array. -/
def dumpsATail : JArr → List Char
  | .nil => []
  | .cons y tl => ',' :: dumpsV y ++ dumpsATail tl

/-- The `,`-separated continuation of a serialized object. -/
def dumpsOTail : JObj → List Char
  | .nil => []
  | .cons k v tl => ',' :: encodeStr k ++ ':' :: dumpsV v ++ dumpsOTail tl

theorem dumpsA_eq : ∀ (x : JVal) (tl : JArr),
    dumpsA (.cons x tl) = dumpsV x ++ dumpsATail tl
  | x, .nil => by simp [dumpsA, dumpsATail]
  | x, .cons y tl2 => by
    rw [dumpsA, dumpsA_eq y tl2]
    simp [dumpsATail]

theorem dumpsO_eq : ∀ (k : String) (v : JVal) (tl : JObj),
    dumpsO (.cons k v tl) = encodeStr k ++ ':' :: dumpsV v ++ dumpsOTail tl
  | k, v, .nil => by simp [dumpsO, dumpsOTail]
  | k, v, .cons k' v' tl2 => by
    rw [dumpsO, dumpsO_eq k' v' tl2]
    simp [dumpsOTail]

theorem dumpsV_head : ∀ j : JVal, ∃ c t, dumpsV j = c :: t ∧
    (c = '"' ∨ c = '[' ∨ c = Char.ofNat 123)
  | .str s => ⟨'"', (s.data.map escapeChar).flatten ++ ['"'], rfl, Or.inl rfl⟩
  | .arr xs => ⟨'[', dumpsA xs ++ [']'], rfl, Or.inr (Or.inl rfl)⟩
  | .obj fs => ⟨Char.ofNat 123, dumpsO fs ++ [Char.ofNat 125], rfl,
      Or.inr (Or.inr rfl)⟩

theorem skipWs_not_ws {c : Char} (h : isWs c = false) (l : List Char) :
    skipWs (c :: l) = c :: l := by
  rw [skipWs, h]
  simp

/-- `JObj.append`: concatenation of two objects (no key collapsing). -/
def JObj.append : JObj → JObj → JObj
  | .nil, o => o
  | .cons k v tl, o => .cons k v (tl.append o)

theorem JObj.append_nil : ∀ o : JObj, o.append .nil = o
  | .nil => rfl
  | .cons k v tl => by simp only [JObj.append, JObj.append_nil tl]

theorem setField_fresh_append : ∀ (acc : JObj) (k : String) (v : JVal)
    (tl : JObj), k ∉ acc.keys →
    (acc.setField k v).append tl = acc.append (.cons k v tl)
  | .nil, k, v, tl, _ => rfl
  | .cons k' v' tl', k, v, tl, h => by
    simp only [JObj.keys, List.mem_cons, not_or] at h
    simp only [JObj.setField, if_neg (Ne.symm h.1), JObj.append,
      setField_fresh_append tl' k v tl h.2]

theorem escapeChar_pos (c : Char) : 1 ≤ (escapeChar c).length := by
  unfold escapeChar
  repeat' split
  all_goals simp [hex4]

theorem length_le_flatten_escape : ∀ l : List Char,
    l.length ≤ ((l.map escapeChar).flatten).length
  | [] => by simp
  | c :: tl => by
    simp only [List.map_cons, List.flatten_cons, List.length_append,
      List.length_cons]
    have h1 := escapeChar_pos c
    have h2 := length_le_flatten_escape tl
    omega

/-! Step equations for the value parser. -/

theorem parseVal_step_quote (f : Nat) (T : List Char) :
    parseVal (f + 1) ('"' :: T) =
      (parseStrBody (T.length + 1) T).map (fun p => (.str ⟨p.1⟩, p.2)) := by
  rw [parseVal, skipWs_not_ws (by decide)]
  rfl

theorem parseVal_step_lbrack (f : Nat) (T : List Char) :
    parseVal (f + 1) ('[' :: T) = parseArrStart f T := by
  rw [parseVal, skipWs_not_ws (by decide)]
  rfl

theorem parseVal_step_lbrace (f : Nat) (T : List Char) :
    parseVal (f + 1) (Char.ofNat 123 :: T) = parseObjStart f T := by
  rw [parseVal, skipWs_not_ws (by decide)]
  rfl

theorem parseArrStart_step_close (f : Nat) (T : List Char) :
    parseArrStart (f + 1) (']' :: T) = some (.arr .nil, T) := by
  rw [parseArrStart, skipWs_not_ws (by decide)]
  rfl

theorem parseArrStart_step_ok (f : Nat) (c : Char) (T r r2 : List Char)
    (v : JVal) (tl : JArr)
    (hws : isWs c = false) (hne : ¬ c = ']')
    (h1 : parseVal f (c :: T) = some (v, r))
    (h2 : parseArrRest f r = some (tl, r2)) :
    parseArrStart (f + 1) (c :: T) = some (.arr (.cons v tl), r2) := by
  rw [parseArrStart, skipWs_not_ws hws]
  simp only []
  rw [if_neg hne]
  simp only [h1, h2]

theorem parseArrRest_step_close (f : Nat) (T : List Char) :
    parseArrRest (f + 1) (']' :: T) = some (.nil, T) := by
  rw [parseArrRest, skipWs_not_ws (by decide)]
  rfl

theorem parseArrRest_step_comma (f : Nat) (T r r2 : List Char)
    (v : JVal) (tl : JArr)
    (h1 : parseVal f T = some (v, r))
    (h2 : parseArrRest f r = some (tl, r2)) :
    parseArrRest (f + 1) (',' :: T) = some (.cons v tl, r2) := by
  rw [parseArrRest, skipWs_not_ws (by decide)]
  simp only [h1, h2]
  rfl

theorem parsePair_step_ok (f : Nat) (T r2 r3 : List Char)
    (kd : List Char) (v : JVal)
    (h1 : parseStrBody (T.length + 1) T = some (kd, ':' :: r2))
    (h2 : parseVal f r2 = some (v, r3)) :
    parsePair (f + 1) ('"' :: T) = some ((⟨kd⟩, v), r3) := by
  rw [parsePair, skipWs_not_ws (by decide)]
  have hsk : skipWs (':' :: r2) = ':' :: r2 := skipWs_not_ws (by decide) r2
  simp only [h1, hsk, h2]
  rfl

theorem parseObjStart_step_close (f : Nat) (T : List Char) :
    parseObjStart (f + 1) (Char.ofNat 125 :: T) = some (.obj .nil, T) := by
  rw [parseObjStart, skipWs_not_ws (by decide)]
  rfl

theorem parseObjStart_step_pair (f : Nat) (c : Char) (T r : List Char)
    (kv : String × JVal)
    (hws : isWs c = false) (hne : ¬ c = Char.ofNat 125)
    (h1 : parsePair f (c :: T) = some (kv, r)) :
    parseObjStart (f + 1) (c :: T) =
      parseObjRest f (JObj.nil.setField kv.1 kv.2) r := by
  rw [parseObjStart, skipWs_not_ws hws]
  simp only []
  rw [if_neg hne]
  simp only [h1]

theorem parseObjRest_step_close (f : Nat) (acc : JObj) (T : List Char) :
    parseObjRest (f + 1) acc (Char.ofNat 125 :: T) = some (.obj acc, T) := by
  rw [parseObjRest, skipWs_not_ws (by decide)]
  rfl

theorem parseObjRest_step_comma (f : Nat) (acc : JObj) (T r : List Char)
    (kv : String × JVal)
    (h1 : parsePair f T = some (kv, r)) :
    parseObjRest (f + 1) acc (',' :: T) =
      parseObjRest f (acc.setField kv.1 kv.2) r := by
  rw [parseObjRest, skipWs_not_ws (by decide)]
  simp only [h1]
  rfl

mutual

/-- Parsing the compact serialization of a well-formed value recovers it. -/
theorem parseVal_dumps : ∀ (j : JVal), wfV j = true →
    ∀ (rest : List Char) (fuel : Nat), sizeV j ≤ fuel →
    parseVal fuel (dumpsV j ++ rest) = some (j, rest)
  | .str s, _, rest, fuel, hf => by
    obtain ⟨f, rfl⟩ : ∃ f, fuel = f + 1 :=
      ⟨fuel - 1, by have := sizeV_pos (.str s); omega⟩
    rw [show dumpsV (.str s) =
      '"' :: ((s.data.map escapeChar).flatten ++ ['"']) from rfl]
    simp only [List.cons_append, List.append_assoc, List.singleton_append,
      List.nil_append]
    rw [parseVal_step_quote,
      parseStrBody_escape s.data rest _ (by
        have h1 := length_le_flatten_escape s.data
        simp only [List.length_append, List.length_cons]
        omega)]
    rfl
  | .arr xs, hwf, rest, fuel, hf => by
    obtain ⟨f, rfl⟩ : ∃ f, fuel = f + 1 :=
      ⟨fuel - 1, by have := sizeV_pos (.arr xs); omega⟩
    rw [show dumpsV (.arr xs) = '[' :: (dumpsA xs ++ [']']) from rfl]
    simp only [List.cons_append, List.append_assoc, List.singleton_append,
      List.nil_append]
    rw [parseVal_step_lbrack]
    exact parseArrStart_dumps xs (by simpa [wfV] using hwf) rest f
      (by simp only [sizeV] at hf; omega)
  | .obj fs, hwf, rest, fuel, hf => by
    obtain ⟨f, rfl⟩ : ∃ f, fuel = f + 1 :=
      ⟨fuel - 1, by have := sizeV_pos (.obj fs); omega⟩
    rw [show dumpsV (.obj fs) =
      Char.ofNat 123 :: (dumpsO fs ++ [Char.ofNat 125]) from rfl]
    simp only [List.cons_append, List.append_assoc, List.singleton_append,
      List.nil_append]
    rw [parseVal_step_lbrace]
    have hw : nodupKeysB fs = true ∧ wfO fs = true := by
      simpa [wfV, Bool.and_eq_true] using hwf
    exact parseObjStart_dumps fs hw.1 hw.2 rest f
      (by simp only [sizeV] at hf; omega)

theorem parseArrStart_dumps : ∀ (xs : JArr), wfA xs = true →
    ∀ (rest : List Char) (fuel : Nat), sizeA xs ≤ fuel →
    parseArrStart fuel (dumpsA xs ++ ']' :: rest) = some (.arr xs, rest)
  | .nil, _, rest, fuel, hf => by
    obtain ⟨f, rfl⟩ : ∃ f, fuel = f + 1 :=
      ⟨fuel - 1, by have := sizeA_pos JArr.nil; omega⟩
    rw [show dumpsA .nil = ([] : List Char) from rfl]
    simp only [List.nil_append]
    exact parseArrStart_step_close f rest
  | .cons x tl, hwf, rest, fuel, hf => by
    obtain ⟨f, rfl⟩ : ∃ f, fuel = f + 1 :=
      ⟨fuel - 1, by have := sizeA_pos (JArr.cons x tl); omega⟩
    rw [dumpsA_eq x tl]
    simp only [List.append_assoc]
    obtain ⟨c, t, hct, hc3⟩ := dumpsV_head x
    have hwx : wfV x = true ∧ wfA tl = true := by
      simpa [wfA, Bool.and_eq_true] using hwf
    simp only [sizeA] at hf
    have h1 : parseVal f (dumpsV x ++ (dumpsATail tl ++ ']' :: rest)) =
        some (x, dumpsATail tl ++ ']' :: rest) :=
      parseVal_dumps x hwx.1 _ f (by have := sizeA_pos tl; omega)
    have h2 : parseArrRest f (dumpsATail tl ++ ']' :: rest) = some (tl, rest) :=
      parseArrRest_dumps tl hwx.2 rest f (by have := sizeV_pos x; omega)
    rw [hct] at h1 ⊢
    simp only [List.cons_append] at h1 ⊢
    exact parseArrStart_step_ok f c _ _ rest x tl
      (by rcases hc3 with rfl | rfl | rfl <;> decide)
      (by rcases hc3 with rfl | rfl | rfl <;> decide) h1 h2

theorem parseArrRest_dumps : ∀ (tl : JArr), wfA tl = true →
    ∀ (rest : List Char) (fuel : Nat), sizeA tl ≤ fuel →
    parseArrRest fuel (dumpsATail tl ++ ']' :: rest) = some (tl, rest)
  | .nil, _, rest, fuel, hf => by
    obtain ⟨f, rfl⟩ : ∃ f, fuel = f + 1 :=
      ⟨fuel - 1, by have := sizeA_pos JArr.nil; omega⟩
    rw [show dumpsATail .nil = ([] : List Char) from rfl]
    simp only [List.nil_append]
    exact parseArrRest_step_close f rest
  | .cons y tl2, hwf, rest, fuel, hf => by
    obtain ⟨f, rfl⟩ : ∃ f, fuel = f + 1 :=
      ⟨fuel - 1, by have := sizeA_pos (JArr.cons y tl2); omega⟩
    rw [show dumpsATail (.cons y tl2) = ',' :: dumpsV y ++ dumpsATail tl2 from rfl]
    simp only [List.cons_append, List.append_assoc]
    have hwx : wfV y = true ∧ wfA tl2 = true := by
      simpa [wfA, Bool.and_eq_true] using hwf
    simp only [sizeA] at hf
    exact parseArrRest_step_comma f _ _ rest y tl2
      (parseVal_dumps y hwx.1 _ f (by have := sizeA_pos tl2; omega))
      (parseArrRest_dumps tl2 hwx.2 rest f (by have := sizeV_pos y; omega))

theorem parseObjStart_dumps : ∀ (fs : JObj), nodupKeysB fs = true →
    wfO fs = true → ∀ (rest : List Char) (fuel : Nat), sizeO fs ≤ fuel →
    parseObjStart fuel (dumpsO fs ++ Char.ofNat 125 :: rest) =
      some (.obj fs, rest)
  | .nil, _, _, rest, fuel, hf => by
    obtain ⟨f, rfl⟩ : ∃ f, fuel = f + 1 :=
      ⟨fuel - 1, by have := sizeO_pos JObj.nil; omega⟩
    rw [show dumpsO .nil = ([] : List Char) from rfl]
    simp only [List.nil_append]
    exact parseObjStart_step_close f rest
  | .cons k v tl, hnd, hwo, rest, fuel, hf => by
    simp only [sizeO] at hf
    have hvtl : wfV v = true ∧ wfO tl = true := by
      simpa [wfO, Bool.and_eq_true] using hwo
    have hnd' : tl.keys.contains k = false ∧ nodupKeysB tl = true := by
      simpa [nodupKeysB, Bool.and_eq_true, Bool.not_eq_true'] using hnd
    have hkmem : k ∉ tl.keys := (contains_false_iff _ _).mp hnd'.1
    have hsv := sizeV_pos v
    have hso := sizeO_pos tl
    obtain ⟨f2, rfl⟩ : ∃ f2, fuel = f2 + 1 + 1 := ⟨fuel - 2, by omega⟩
    rw [dumpsO_eq k v tl,
      show encodeStr k = '"' :: ((k.data.map escapeChar).flatten ++ ['"']) from rfl]
    simp only [List.cons_append, List.append_assoc, List.singleton_append,
      List.nil_append]
    have hpair : parsePair (f2 + 1)
        ('"' :: ((k.data.map escapeChar).flatten ++ '"' :: ':' ::
          (dumpsV v ++ (dumpsOTail tl ++ Char.ofNat 125 :: rest)))) =
        some ((⟨k.data⟩, v), dumpsOTail tl ++ Char.ofNat 125 :: rest) :=
      parsePair_step_ok f2 _ _ _ k.data v
        (by
          rw [show ((k.data.map escapeChar).flatten ++ '"' :: ':' ::
            (dumpsV v ++ (dumpsOTail tl ++ Char.ofNat 125 :: rest))) =
            ((k.data.map escapeChar).flatten ++ '"' ::
              (':' :: (dumpsV v ++ (dumpsOTail tl ++ Char.ofNat 125 :: rest))))
            from rfl]
          exact parseStrBody_escape k.data _ _ (by
            have := length_le_flatten_escape k.data
            simp only [List.length_append, List.length_cons]
            omega))
        (parseVal_dumps v hvtl.1 _ f2 (by omega))
    rw [parseObjStart_step_pair (f2 + 1) '"' _ _ (⟨k.data⟩, v)
      (by decide) (by decide) hpair]
    show parseObjRest (f2 + 1) (JObj.cons k v JObj.nil)
      (dumpsOTail tl ++ Char.ofNat 125 :: rest) = some (.obj (.cons k v tl), rest)
    rw [parseObjRest_dumps tl (JObj.cons k v JObj.nil) hvtl.2
      ((nodupKeysB_iff tl).mp hnd'.2)
      (by
        intro k' hk'
        simp only [JObj.keys, List.mem_cons, List.not_mem_nil, or_false]
        intro hkk
        exact hkmem (hkk ▸ hk'))
      rest (f2 + 1) (by omega)]
    rfl

theorem parseObjRest_dumps : ∀ (tl acc : JObj), wfO tl = true →
    tl.keys.Nodup → (∀ k ∈ tl.keys, k ∉ acc.keys) →
    ∀ (rest : List Char) (fuel : Nat), sizeO tl ≤ fuel →
    parseObjRest fuel acc (dumpsOTail tl ++ Char.ofNat 125 :: rest) =
      some (.obj (acc.append tl), rest)
  | .nil, acc, _, _, _, rest, fuel, hf => by
    obtain ⟨f, rfl⟩ : ∃ f, fuel = f + 1 :=
      ⟨fuel - 1, by have := sizeO_pos JObj.nil; omega⟩
    rw [show dumpsOTail .nil = ([] : List Char) from rfl]
    simp only [List.nil_append]
    rw [parseObjRest_step_close f acc rest, JObj.append_nil]
  | .cons k v tl2, acc, hwo, hnd, hfresh, rest, fuel, hf => by
    simp only [sizeO] at hf
    have hvtl : wfV v = true ∧ wfO tl2 = true := by
      simpa [wfO, Bool.and_eq_true] using hwo
    have hsv := sizeV_pos v
    have hso := sizeO_pos tl2
    obtain ⟨f2, rfl⟩ : ∃ f2, fuel = f2 + 1 + 1 := ⟨fuel - 2, by omega⟩
    simp only [JObj.keys, List.nodup_cons] at hnd
    have hkfresh : k ∉ acc.keys := hfresh k (by simp [JObj.keys])
    rw [show dumpsOTail (.cons k v tl2) =
      ',' :: encodeStr k ++ ':' :: dumpsV v ++ dumpsOTail tl2 from rfl,
      show encodeStr k = '"' :: ((k.data.map escapeChar).flatten ++ ['"']) from rfl]
    simp only [List.cons_append, List.append_assoc, List.singleton_append,
      List.nil_append]
    have hpair : parsePair (f2 + 1)
        ('"' :: ((k.data.map escapeChar).flatten ++ '"' :: ':' ::
          (dumpsV v ++ (dumpsOTail tl2 ++ Char.ofNat 125 :: rest)))) =
        some ((⟨k.data⟩, v), dumpsOTail tl2 ++ Char.ofNat 125 :: rest) :=
      parsePair_step_ok f2 _ _ _ k.data v
        (by
          exact parseStrBody_escape k.data _ _ (by
            have := length_le_flatten_escape k.data
            simp only [List.length_append, List.length_cons]
            omega))
        (parseVal_dumps v hvtl.1 _ f2 (by omega))
    rw [parseObjRest_step_comma (f2 + 1) acc _ _ (⟨k.data⟩, v) hpair]
    show parseObjRest (f2 + 1) (acc.setField k v)
      (dumpsOTail tl2 ++ Char.ofNat 125 :: rest) =
      some (.obj (acc.append (.cons k v tl2)), rest)
    rw [parseObjRest_dumps tl2 (acc.setField k v) hvtl.2 hnd.2
      (by
        intro k' hk' hmem
        rcases JObj.keys_setField_sub v hmem with h' | h'
        · exact hfresh k' (by simp [JObj.keys, hk']) h'
        · exact hnd.1 (h' ▸ hk'))
      rest (f2 + 1) (by omega),
      setField_fresh_append acc k v tl2 hkfresh]

end

mutual
theorem sizeV_le_dumpsV : ∀ j : JVal, sizeV j ≤ 2 * (dumpsV j).length
  | .str s => by
    rw [show dumpsV (.str s) =
      '"' :: ((s.data.map escapeChar).flatten ++ ['"']) from rfl]
    simp only [sizeV, List.length_cons, List.length_append]
    omega
  | .arr xs => by
    rw [show dumpsV (.arr xs) = '[' :: (dumpsA xs ++ [']']) from rfl]
    have h := sizeA_le_dumpsA xs
    simp only [sizeV, List.length_cons, List.length_append] at *
    omega
  | .obj fs => by
    rw [show dumpsV (.obj fs) =
      Char.ofNat 123 :: (dumpsO fs ++ [Char.ofNat 125]) from rfl]
    have h := sizeO_le_dumpsO fs
    simp only [sizeV, List.length_cons, List.length_append] at *
    omega
theorem sizeA_le_dumpsA : ∀ xs : JArr, sizeA xs ≤ 2 * (dumpsA xs).length + 3
  | .nil => by simp [sizeA, dumpsA]
  | .cons x tl => by
    rw [dumpsA_eq x tl]
    have h1 := sizeV_le_dumpsV x
    have h2 := sizeA_le_dumpsATail tl
    simp only [sizeA, List.length_append] at *
    omega
theorem sizeA_le_dumpsATail : ∀ tl : JArr, sizeA tl ≤ 2 * (dumpsATail tl).length + 2
  | .nil => by simp [sizeA, dumpsATail]
  | .cons y tl2 => by
    rw [show dumpsATail (.cons y tl2) = ',' :: dumpsV y ++ dumpsATail tl2 from rfl]
    have h1 := sizeV_le_dumpsV y
    have h2 := sizeA_le_dumpsATail tl2
    simp only [sizeA, List.length_cons, List.length_append] at *
    omega
theorem sizeO_le_dumpsO : ∀ fs : JObj, sizeO fs ≤ 2 * (dumpsO fs).length + 3
  | .nil => by simp [sizeO, dumpsO]
  | .cons k v tl => by
    rw [dumpsO_eq k v tl]
    have h1 := sizeV_le_dumpsV v
    have h2 := sizeO_le_dumpsOTail tl
    simp only [sizeO, List.length_cons, List.length_append] at *
    omega
theorem sizeO_le_dumpsOTail : ∀ tl : JObj, sizeO tl ≤ 2 * (dumpsOTail tl).length + 2
  | .nil => by simp [sizeO, dumpsOTail]
  | .cons k v tl2 => by
    rw [show dumpsOTail (.cons k v tl2) =
      ',' :: encodeStr k ++ ':' :: dumpsV v ++ dumpsOTail tl2 from rfl]
    have h1 := sizeV_le_dumpsV v
    have h2 := sizeO_le_dumpsOTail tl2
    simp only [sizeO, List.length_cons, List.length_append] at *
    omega
end

/-- `json.load` inverts the compact serializer on well-formed documents. -/
theorem loads_dumps (j : JVal) (h : wfV j = true) : loads (dumps j) = some j := by
  unfold loads
  rw [show (dumps j).data = dumpsV j from rfl]
  have hb := sizeV_le_dumpsV j
  have h1 := parseVal_dumps j h [] (2 * (dumps j).length + 2)
    (by
      rw [show (dumps j).length = (dumpsV j).length from rfl]
      omega)
  rw [show dumpsV j ++ ([] : List Char) = dumpsV j from by simp] at h1
  rw [h1]
  simp [skipWs]

/-! ### More facts about the rebuild loop, for idempotence -/

theorem mem_listInsert : ∀ {F : List (String × String)} {k v : String}
    {kv : String × String}, kv ∈ listInsert F k v → kv ∈ F ∨ kv = (k, v)
  | [], k, v, kv, h => by simpa [listInsert] using h
  | (k', v') :: tl, k, v, kv, h => by
    simp only [listInsert] at h
    by_cases hk : k' = k
    · simp only [hk, if_true, List.mem_cons] at h
      rcases h with h | h
      · exact Or.inr h
      · exact Or.inl (by simp [h])
    · simp only [hk, if_false, List.mem_cons] at h
      rcases h with h | h
      · exact Or.inl (by simp [h])
      · rcases mem_listInsert h with h' | h'
        · exact Or.inl (by simp [h'])
        · exact Or.inr h'

theorem listInsert_nodup : ∀ {F : List (String × String)} (k v : String),
    (F.map Prod.fst).Nodup → ((listInsert F k v).map Prod.fst).Nodup
  | [], k, v, _ => by simp [listInsert]
  | (k', v') :: tl, k, v, h => by
    simp only [List.map_cons, List.nodup_cons] at h
    simp only [listInsert]
    by_cases hk : k' = k
    · subst hk
      simpa [List.map_cons, List.nodup_cons] using h
    · simp only [hk, if_false, List.map_cons, List.nodup_cons]
      refine ⟨?_, listInsert_nodup k v h.2⟩
      intro hmem
      rcases mem_fst_listInsert hmem with h' | h'
      · exact h.1 h'
      · exact hk h'

theorem hashLoop_nodup (fs : FS) :
    ∀ (items : List JVal) (acc F : List (String × String)),
    (acc.map Prod.fst).Nodup → hashLoop fs items acc = (none, F) →
    (F.map Prod.fst).Nodup
  | [], acc, F, hnd, h => by
    simp only [hashLoop, Prod.mk.injEq] at h
    exact h.2 ▸ hnd
  | .str f :: rest, acc, F, hnd, h => by
    simp only [hashLoop] at h
    cases hfs : fs f with
    | absent => rw [hfs] at h; exact hashLoop_nodup fs rest acc F hnd h
    | file c =>
      rw [hfs] at h
      exact hashLoop_nodup fs rest _ F (listInsert_nodup _ _ hnd) h
    | dir => rw [hfs] at h; simp at h
    | unreadable => rw [hfs] at h; simp at h
  | .arr xs :: rest, acc, F, hnd, h => by simp [hashLoop] at h
  | .obj o :: rest, acc, F, hnd, h => by simp [hashLoop] at h

theorem hashLoop_pairs (fs : FS) :
    ∀ (items : List JVal) (acc F : List (String × String)),
    (∀ kv ∈ acc, ∃ c, fs kv.1 = .file c ∧ kv.2 = sha256File c) →
    hashLoop fs items acc = (none, F) →
    ∀ kv ∈ F, ∃ c, fs kv.1 = .file c ∧ kv.2 = sha256File c
  | [], acc, F, hacc, h => by
    simp only [hashLoop, Prod.mk.injEq] at h
    exact h.2 ▸ hacc
  | .str f :: rest, acc, F, hacc, h => by
    simp only [hashLoop] at h
    cases hfs : fs f with
    | absent => rw [hfs] at h; exact hashLoop_pairs fs rest acc F hacc h
    | file c =>
      rw [hfs] at h
      refine hashLoop_pairs fs rest _ F ?_ h
      intro kv hkv
      rcases mem_listInsert hkv with h' | h'
      · exact hacc kv h'
      · exact ⟨c, by rw [h', hfs], by rw [h']⟩
    | dir => rw [hfs] at h; simp at h
    | unreadable => rw [hfs] at h; simp at h
  | .arr xs :: rest, acc, F, hacc, h => by simp [hashLoop] at h
  | .obj o :: rest, acc, F, hacc, h => by simp [hashLoop] at h

theorem setFile_same (fs : FS) (p : String) (st : FileState) :
    setFile fs p st p = st := by simp [setFile]

theorem setFile_ne (fs : FS) (p q : String) (st : FileState) (h : q ≠ p) :
    setFile fs p st q = fs q := by simp [setFile, h]

theorem setFile_setFile (fs : FS) (p : String) (a b : FileState) :
    setFile (setFile fs p a) p b = setFile fs p b := by
  funext q
  simp only [setFile]
  by_cases h : q = p <;> simp [h]

theorem update_manifest_unreadable {fs : FS}
    (hex : (fs manifestPath).toExists = true)
    (hrd : (fs manifestPath).read? = none) :
    update_checksum_file fs = (some .ioError, fs) := by
  unfold update_checksum_file
  rw [hex, hrd]
  rfl

/-- C3 amended: refresh is idempotent on every workspace whose manifest
does not list the manifest's own path.  A successful first run's output
filesystem is a fixed point: a second run succeeds and rewrites the
manifest with identical content.  (The counterexample shows the
restriction is necessary: a self-listing manifest is rehashed after the
first run already changed its bytes.) -/
theorem C3_idempotent_without_self_listing (fs : FS)
    (h0 : (update_checksum_file fs).1 = none)
    (hns : ∀ text data fv, fs manifestPath = .file text →
      loads text = some data → getItem data "files" = .ok fv →
      JVal.str manifestPath ∉ iterItems fv) :
    update_checksum_file ((update_checksum_file fs).2) =
      update_checksum_file fs := by
  cases hmf : fs manifestPath with
  | absent =>
    rw [update_absent_noop fs hmf]
    exact update_absent_noop fs hmf
  | dir =>
    rw [update_manifest_unreadable (by rw [hmf]; rfl) (by rw [hmf]; rfl)] at h0
    simp at h0
  | unreadable =>
    rw [update_manifest_unreadable (by rw [hmf]; rfl) (by rw [hmf]; rfl)] at h0
    simp at h0
  | file text =>
    cases hload : loads text with
    | none =>
      rw [update_eq_loaded hmf, hload] at h0
      simp at h0
    | some data =>
      obtain ⟨flds, fv, F, hdata, hget, hloop, hupd⟩ := run_inv hmf hload h0
      subst hdata
      have hwfold := loads_wf hload
      have hw : nodupKeysB flds = true ∧ wfO flds = true := by
        simpa [wfV, Bool.and_eq_true] using hwfold
      have hFnodup : (F.map Prod.fst).Nodup :=
        hashLoop_nodup fs _ [] F (by simp) hloop
      have hpairs : ∀ kv ∈ F, ∃ c, fs kv.1 = .file c ∧ kv.2 = sha256File c :=
        hashLoop_pairs fs _ [] F (by simp) hloop
      have hget' := hns text (.obj flds) fv hmf hload hget
      have hmpF : manifestPath ∉ F.map Prod.fst := by
        intro hmem
        rcases hashLoop_none_keys fs _ [] F hloop manifestPath hmem with h' | h'
        · simp at h'
        · exact hget' h'
      set X := JVal.obj (filesToJObj F) with hX
      set data' := JVal.obj (flds.setField "files" X) with hdata'
      set fs' := setFile fs manifestPath (.file (dumps data')) with hfs'
      rw [hupd]
      show update_checksum_file fs' = (none, fs')
      have h1' : fs' manifestPath = .file (dumps data') := by
        rw [hfs']
        exact setFile_same fs manifestPath _
      have hwfX : wfV X = true := by
        rw [hX]
        simp only [wfV, Bool.and_eq_true]
        exact ⟨nodupKeysB_filesToJObj hFnodup, wfO_filesToJObj F⟩
      have hwf' : wfV data' = true := by
        rw [hdata']
        simp only [wfV, Bool.and_eq_true]
        exact ⟨nodupKeysB_setField _ _ hw.1, wfO_setField hw.2 hwfX⟩
      have hround : loads (dumps data') = some data' := loads_dumps data' hwf'
      have hne_mp : ∀ kv ∈ F, kv.1 ≠ manifestPath := by
        intro kv hkv hh
        exact hmpF (hh ▸ List.mem_map_of_mem Prod.fst hkv)
      have hpairs' : ∀ kv ∈ F, ∃ c, fs' kv.1 = .file c ∧ kv.2 = sha256File c := by
        intro kv hkv
        rcases hpairs kv hkv with ⟨c, hc, hv⟩
        refine ⟨c, ?_, hv⟩
        rw [hfs', setFile_ne fs manifestPath kv.1 _ (hne_mp kv hkv), hc]
      have hreadable : ∀ k ∈ F.map Prod.fst, readableOrAbsent fs' k := by
        intro k hk
        rcases List.mem_map.mp hk with ⟨kv, hkv, rfl⟩
        rcases hpairs' kv hkv with ⟨c, hc, _⟩
        exact Or.inr ⟨c, hc⟩
      have hloop2 : hashLoop fs' (iterItems X) [] = (none, F) := by
        rw [hX, iterItems_obj, keys_filesToJObj,
          hashLoop_ok fs' (F.map Prod.fst) [] hreadable hFnodup (by simp),
          List.nil_append, refreshedFiles_of_pairs fs' F hpairs']
      rw [update_eq_afterLoad h1' (by rw [hdata'] at hround ⊢; exact hround),
        afterLoad_ok (getItem_obj_some (JObj.find_setField_self flds "files" X)),
        afterFiles_ok hloop2, writeBack_obj, JObj.setField_setField_self]
      rw [← hdata', hfs', setFile_setFile]

/-- Workspace witnessing the amended idempotence: the C8 workspace, whose
manifest does not list `.cargo-checksum.json` itself. -/
theorem C3_idempotent_without_self_listing_witness :
    update_checksum_file ((update_checksum_file fsC8).2) =
      update_checksum_file fsC8 :=
  C3_idempotent_without_self_listing fsC8 (by decide)
    (fun text data fv h1 h2 h3 => by
      have htext : text = textC8 := by
        have h : FileState.file textC8 = FileState.file text :=
          (show fsC8 manifestPath = .file textC8 from by decide) ▸ h1
        cases h
        rfl
      subst htext
      have hdata : data = .obj fldsC8 := by
        have h : some (JVal.obj fldsC8) = some data :=
          (show loads textC8 = some (.obj fldsC8) from by decide) ▸ h2
        cases h
        rfl
      subst hdata
      have hfv : fv = .obj ffC8 := by
        have h : Except.ok (ε := PyErr) (JVal.obj ffC8) = Except.ok fv :=
          (show getItem (.obj fldsC8) "files" = .ok (.obj ffC8) from rfl) ▸ h3
        cases h
        rfl
      subst hfv
      decide)

end FixChecksum
